import Mathlib

/-!
# blockdb.Tx

A shallow embedding of `src/blockdb/tx.go`: the per-transaction query surface
(`Tx`) with its memoised fee, the skip-and-concatenate payload aggregations,
the address queries, the largest-output and dust heuristics and the spender
lookup.

Conventions of the embedding.

* A Go function returning `(v, err)` is a function into `α × Option Error`;
  `none` is the nil error.
* A Go slice is an `Option (List α)`: `none` is the nil slice.
* A call that may abort on an out-of-range index returns an `Outcome`.
* A method with a pointer receiver that writes to the receiver returns the
  receiver afterwards next to its result.
* `int64` values are integers; every `int64` addition and subtraction of the
  source is followed by `wrapInt64`.
* Collaborators declared outside `tx.go` (the database, the script
  extractors, the address derivation, the display conversion of an amount)
  are parameters.
-/

set_option autoImplicit false

namespace Blockdb

/-! ## Go values -/

/-- A Go `error` value that is not nil. -/
abbrev Error := String

/-- A Go slice; `none` is the nil slice, `some xs` a non-nil slice of `xs`. -/
abbrev Slice (α : Type) := Option (List α)

/-- The elements of a slice, as `range` visits them. -/
def sliceElems {α : Type} : Slice α → List α
  | none => []
  | some xs => xs

/-- Go's `append(s, t...)`: appending nothing gives `s` back (nil stays nil),
appending something gives a non-nil slice. -/
def goAppend {α : Type} (s t : Slice α) : Slice α :=
  match sliceElems t with
  | [] => s
  | y :: ys => some (sliceElems s ++ y :: ys)

/-- A byte slice; bytes are numbers below 256. -/
abbrev Bytes := Slice Nat

/-- How a call ends: it returns, or it aborts (index out of range). -/
inductive Outcome (α : Type) where
  | ret (v : α)
  | panic
  deriving DecidableEq, Repr

/-- The value of an `int64` expression whose mathematical value is `x`. -/
def wrapInt64 (x : Int) : Int :=
  (x + 9223372036854775808) % 18446744073709551616 - 9223372036854775808

/-- The value of `uint32(x)` for an `int` `x`. -/
def toUint32 (x : Int) : Nat :=
  (x % 4294967296).toNat

/-! ## Data model -/

/-- A `chainhash.Hash`: 32 bytes. -/
abbrev Hash := List Nat

/-- Modelled from the spec: `emptyHash` is a package variable declared outside
`tx.go`; the spec calls it the all-zero sentinel previous-transaction hash. -/
def emptyHash : Hash := List.replicate 32 0

/-- A `wire.OutPoint`. -/
structure OutPoint where
  Hash : Hash
  Index : Nat
  deriving DecidableEq, Repr

/-- A `wire.TxIn`, with the fields `tx.go` reads. -/
structure TxIn where
  PreviousOutPoint : OutPoint
  SignatureScript : Bytes
  deriving DecidableEq, Repr

/-- A `wire.TxOut`. -/
structure TxOut where
  Value : Int
  PkScript : Bytes
  deriving DecidableEq, Repr

/-- A `wire.MsgTx`, with the fields `tx.go` reads. -/
structure WireMsgTx where
  TxIn : List TxIn
  TxOut : List TxOut
  deriving DecidableEq, Repr

/-- The fields of `Tx` other than the database pointer. `MsgTx` and `txHash`
are what the embedded `*btcutil.Tx` answers to `MsgTx()` and `Hash()`. -/
structure TxRecord where
  MsgTx : WireMsgTx
  txHash : Hash
  DATFileIdx : Nat
  BlockTimestamp : Int
  BlockIndexInDATFile : Nat
  BlockHash : Hash
  IndexInBlock : Nat
  fee : Int
  calculatedFee : Bool
  deriving DecidableEq, Repr

/-- A `SpentTxOutKey`. -/
structure SpentTxOutKey where
  TxHash : Hash
  TxOutIndex : Nat
  deriving DecidableEq, Repr

/-- Modelled from the spec: `SpentTxOut` is declared outside `tx.go`; the spec
gives the record the spending transaction hash and the consuming input
index. -/
structure SpentTxOut where
  InputTxHash : Hash
  InputTxInIndex : Nat
  deriving DecidableEq, Repr

/-- Modelled from the spec: `BlockDB` is declared outside `tx.go`, which uses
its two lookups only. `GetTx` returns a transaction pointer (`none` is nil)
and an error, `GetSpentTxOut` a record and an error. -/
structure BlockDB where
  GetTx : Hash → Option TxRecord × Option Error
  GetSpentTxOut : SpentTxOutKey → SpentTxOut × Option Error

/-- The `Tx` struct. -/
structure Tx extends TxRecord where
  db : BlockDB

/-- A call the code makes on the database. -/
inductive DBCall where
  | GetTx (hash : Hash)
  | GetSpentTxOut (key : SpentTxOutKey)
  deriving DecidableEq, Repr

/-! ## Fee -/

/-- The arguments of the diagnostic line `Fee` prints when a lookup fails. -/
structure FeeLog where
  prevHash : Hash
  txHash : Hash
  txinIdx : Nat
  deriving DecidableEq, Repr

/-- The loop `for _, txout := range tx.MsgTx().TxOut { outValues += txout.Value }`. -/
def Fee.outValues : List TxOut → Int → Int
  | [], outValues => outValues
  | txout :: rest, outValues => Fee.outValues rest (wrapInt64 (outValues + txout.Value))

/-- How the loop over the inputs ends. -/
inductive Fee.Exit where
  | done (inValues : Int)
  | failed (err : Error) (log : FeeLog)
  | panicked
  deriving DecidableEq, Repr

/-- The end of the loop over the inputs and the database calls it made. -/
structure Fee.Loop where
  exit : Fee.Exit
  calls : List DBCall
  deriving DecidableEq, Repr

/-- The loop `for txinIdx, txin := range tx.MsgTx().TxIn` of `Fee`, from input
number `txinIdx` on with the running total `inValues`. -/
def Fee.inValues (db : BlockDB) (txHash : Hash) : List TxIn → Nat → Int → Fee.Loop
  | [], _, inValues => ⟨.done inValues, []⟩
  | txin :: rest, txinIdx, inValues =>
    if txin.PreviousOutPoint.Hash = emptyHash then
      Fee.inValues db txHash rest (txinIdx + 1) inValues
    else
      match db.GetTx txin.PreviousOutPoint.Hash with
      | (_, some err) =>
        ⟨.failed err ⟨txin.PreviousOutPoint.Hash, txHash, txinIdx⟩,
          [.GetTx txin.PreviousOutPoint.Hash]⟩
      | (none, none) => ⟨.panicked, [.GetTx txin.PreviousOutPoint.Hash]⟩
      | (some prevTx, none) =>
        match prevTx.MsgTx.TxOut[txin.PreviousOutPoint.Index]? with
        | none => ⟨.panicked, [.GetTx txin.PreviousOutPoint.Hash]⟩
        | some txout =>
          let r := Fee.inValues db txHash rest (txinIdx + 1) (wrapInt64 (inValues + txout.Value))
          ⟨r.exit, .GetTx txin.PreviousOutPoint.Hash :: r.calls⟩

/-- What a call of `Fee` does: its result, the receiver afterwards, the
database calls it made and the lines it printed. -/
structure FeeCall where
  result : Outcome (Int × Option Error)
  tx : Tx
  calls : List DBCall
  printed : List FeeLog

/-- The method `Fee`. -/
def Tx.Fee (tx : Tx) : FeeCall :=
  if tx.calculatedFee then
    { result := .ret (tx.fee, none), tx := tx, calls := [], printed := [] }
  else
    let outValues := Fee.outValues tx.MsgTx.TxOut 0
    let r := Fee.inValues tx.db tx.txHash tx.MsgTx.TxIn 0 0
    match r.exit with
    | .failed err log =>
      { result := .ret (0, some err), tx := tx, calls := r.calls, printed := [log] }
    | .panicked =>
      { result := .panic, tx := tx, calls := r.calls, printed := [] }
    | .done inValues =>
      let fee := wrapInt64 (inValues - outValues)
      { result := .ret (fee, none)
        tx := { tx with fee := fee, calculatedFee := true }
        calls := r.calls
        printed := [] }

/-- The method `SetDB`. -/
def Tx.SetDB (tx : Tx) (db : BlockDB) : Tx :=
  { tx with db := db }

/-! ## Payload extraction -/

/-- The script extractors of package `utils`, declared outside `tx.go`. -/
structure Utils where
  GetOPReturnBytes : Bytes → Bytes × Option Error
  GetNonOPBytesFromInputScript : Bytes → Bytes × Option Error
  GetPushdataBytesFromInputScript : Bytes → Bytes × Option Error
  GetNonOPBytesFromOutputScript : Bytes → Bytes × Option Error
  GetSatoshiEncodedData : Bytes → Bytes × Option Error

/-- The element `xs[i]` of a Go slice for an `int` index; `none` when the
index is out of range and the access aborts. -/
def goIndex {α : Type} (xs : List α) (i : Int) : Option α :=
  if 0 ≤ i then xs[i.toNat]? else none

/-- The method `GetOPReturnDataFromTxOut`. -/
def Tx.GetOPReturnDataFromTxOut (u : Utils) (tx : Tx) (txoutIdx : Int) :
    Outcome (Bytes × Option Error) :=
  match goIndex tx.MsgTx.TxOut txoutIdx with
  | none => .panic
  | some txout => .ret (u.GetOPReturnBytes txout.PkScript)

/-- The method `ConcatOPReturnDataFromTxOuts`. -/
def Tx.ConcatOPReturnDataFromTxOuts (u : Utils) (tx : Tx) : Bytes × Option Error :=
  let allBytes := tx.MsgTx.TxOut.foldl (fun (allBytes : Bytes) txout =>
    match u.GetOPReturnBytes txout.PkScript with
    | (_, some _) => allBytes
    | (bs, none) => goAppend allBytes bs) (some [])
  (allBytes, none)

/-- The method `GetNonOPDataFromTxIn`. -/
def Tx.GetNonOPDataFromTxIn (u : Utils) (tx : Tx) (txinIdx : Int) :
    Outcome (Bytes × Option Error) :=
  match goIndex tx.MsgTx.TxIn txinIdx with
  | none => .panic
  | some txin => .ret (u.GetNonOPBytesFromInputScript txin.SignatureScript)

/-- The method `GetPushdataFromTxIn`. -/
def Tx.GetPushdataFromTxIn (u : Utils) (tx : Tx) (txinIdx : Int) :
    Outcome (Bytes × Option Error) :=
  match goIndex tx.MsgTx.TxIn txinIdx with
  | none => .panic
  | some txin => .ret (u.GetPushdataBytesFromInputScript txin.SignatureScript)

/-- The method `GetNonOPDataFromTxOut`. -/
def Tx.GetNonOPDataFromTxOut (u : Utils) (tx : Tx) (txoutIdx : Int) :
    Outcome (Bytes × Option Error) :=
  match goIndex tx.MsgTx.TxOut txoutIdx with
  | none => .panic
  | some txout => .ret (u.GetNonOPBytesFromOutputScript txout.PkScript)

/-- The method `ConcatNonOPDataFromTxOuts`. -/
def Tx.ConcatNonOPDataFromTxOuts (u : Utils) (tx : Tx) : Bytes × Option Error :=
  let allBytes := tx.MsgTx.TxOut.foldl (fun (allBytes : Bytes) txout =>
    match u.GetNonOPBytesFromOutputScript txout.PkScript with
    | (_, some _) => allBytes
    | (bs, none) => goAppend allBytes bs) (some [])
  (allBytes, none)

/-- The method `ConcatNonOPDataFromTxIns`. -/
def Tx.ConcatNonOPDataFromTxIns (u : Utils) (tx : Tx) : Bytes × Option Error :=
  let allBytes := tx.MsgTx.TxIn.foldl (fun (allBytes : Bytes) txin =>
    match u.GetNonOPBytesFromInputScript txin.SignatureScript with
    | (_, some _) => allBytes
    | (bs, none) => goAppend allBytes bs) (some [])
  (allBytes, none)

/-- The method `ConcatPushdataFromTxIns`. -/
def Tx.ConcatPushdataFromTxIns (u : Utils) (tx : Tx) : Bytes × Option Error :=
  let allBytes := tx.MsgTx.TxIn.foldl (fun (allBytes : Bytes) txin =>
    match u.GetPushdataBytesFromInputScript txin.SignatureScript with
    | (_, some _) => allBytes
    | (bs, none) => goAppend allBytes bs) (some [])
  (allBytes, none)

/-- The method `ConcatSatoshiDataFromTxOuts`. -/
def Tx.ConcatSatoshiDataFromTxOuts (u : Utils) (tx : Tx) : Bytes × Option Error :=
  match tx.ConcatNonOPDataFromTxOuts u with
  | (_, some err) => (none, some err)
  | (data, none) => u.GetSatoshiEncodedData data

/-- The method `ConcatTxInScripts`. -/
def Tx.ConcatTxInScripts (tx : Tx) : Bytes × Option Error :=
  let allBytes := tx.MsgTx.TxIn.foldl (fun (allBytes : Bytes) txin =>
    goAppend allBytes txin.SignatureScript) (some [])
  (allBytes, none)

/-! ## Addresses -/

/-- A `btcutil.Address`, by its encoded form. -/
abbrev Address := String

/-- The address derivation `txscript.ExtractPkScriptAddrs` at the main network
parameters, a library outside the repository: of its four results the
address slice and the error, the two `tx.go` keeps. -/
abbrev AddrExtractor := Bytes → Slice Address × Option Error

/-- The method `GetTxOutAddress`. -/
def Tx.GetTxOutAddress (extract : AddrExtractor) (tx : Tx) (txoutIdx : Int) :
    Outcome (Slice Address × Option Error) :=
  match goIndex tx.MsgTx.TxOut txoutIdx with
  | none => .panic
  | some txout =>
    match extract txout.PkScript with
    | (_, some err) => .ret (none, some err)
    | (addresses, none) => .ret (addresses, none)

/-- The loop of `GetTxOutAddresses`, from output number `i` on, writing into
`addrs`. -/
def GetTxOutAddresses.loop (extract : AddrExtractor) :
    List TxOut → Nat → List (Slice Address) → Slice (Slice Address) × Option Error
  | [], _, addrs => (some addrs, none)
  | txout :: rest, i, addrs =>
    match extract txout.PkScript with
    | (_, some err) => (none, some err)
    | (addresses, none) => GetTxOutAddresses.loop extract rest (i + 1) (addrs.set i addresses)

/-- The method `GetTxOutAddresses`. -/
def Tx.GetTxOutAddresses (extract : AddrExtractor) (tx : Tx) :
    Slice (Slice Address) × Option Error :=
  GetTxOutAddresses.loop extract tx.MsgTx.TxOut 0 (List.replicate tx.MsgTx.TxOut.length none)

/-! ## Output heuristics -/

/-- The loop of `FindMaxValueTxOut`, from output number `txoutIdx` on. -/
def FindMaxValueTxOut.loop : List TxOut → Nat → Int → Nat → Nat
  | [], _, _, maxValueIdx => maxValueIdx
  | txout :: rest, txoutIdx, maxValue, maxValueIdx =>
    if txout.Value > maxValue then
      FindMaxValueTxOut.loop rest (txoutIdx + 1) txout.Value txoutIdx
    else
      FindMaxValueTxOut.loop rest (txoutIdx + 1) maxValue maxValueIdx

/-- The method `FindMaxValueTxOut`. -/
def Tx.FindMaxValueTxOut (tx : Tx) : Nat :=
  FindMaxValueTxOut.loop tx.MsgTx.TxOut 0 0 0

/-- The method `HasSuspiciousOutputValues`. `ToBTC` is `Satoshis.ToBTC`,
declared outside `tx.go`, and `tinyBTC` the value of the literal `0.00000001`
in its result type. -/
def Tx.HasSuspiciousOutputValues {BTC : Type} [DecidableEq BTC] (ToBTC : Int → BTC)
    (tinyBTC : BTC) (tx : Tx) : Bool :=
  let numTinyValues : Int := tx.MsgTx.TxOut.foldl (fun (numTinyValues : Int) txout =>
    if ToBTC txout.Value = tinyBTC then numTinyValues + 1 else numTinyValues) 0
  if numTinyValues > 0 ∧ numTinyValues = (tx.MsgTx.TxOut.length : Int) - 1 then
    true
  else
    false

/-! ## Spender lookup -/

/-- What a call of `GetSpendingTx` does: its result and the database calls it
made. -/
structure SpendingTxCall where
  result : Option TxRecord × Option Error
  calls : List DBCall
  deriving DecidableEq, Repr

/-- The method `GetSpendingTx`. -/
def Tx.GetSpendingTx (tx : Tx) (txoutIdx : Int) : SpendingTxCall :=
  let key : SpentTxOutKey := { TxHash := tx.txHash, TxOutIndex := toUint32 txoutIdx }
  match tx.db.GetSpentTxOut key with
  | (_, some err) => ⟨(none, some err), [.GetSpentTxOut key]⟩
  | (spentTxOut, none) =>
    ⟨tx.db.GetTx spentTxOut.InputTxHash, [.GetSpentTxOut key, .GetTx spentTxOut.InputTxHash]⟩

/-! ## File name -/

/-- The method `DATFilename`: `fmt.Sprintf("blk%05d.dat", tx.DATFileIdx)`. -/
def Tx.DATFilename (tx : Tx) : String :=
  let digits := (Nat.repr tx.DATFileIdx).toList
  "blk" ++ String.mk (List.replicate (5 - digits.length) '0' ++ digits) ++ ".dat"

/-! ## Vocabulary of the properties -/

/-- The input is a coinbase input: its previous-transaction hash is the
sentinel. -/
def TxIn.isCoinbase (txin : TxIn) : Bool :=
  decide (txin.PreviousOutPoint.Hash = emptyHash)

/-- The inputs that are not coinbase inputs, in order. -/
def nonCoinbase (ins : List TxIn) : List TxIn :=
  ins.filter (fun txin => !txin.isCoinbase)

/-- The value of the output an input references, when the database resolves
the predecessor transaction and that transaction has the referenced output. -/
def referencedValue (db : BlockDB) (txin : TxIn) : Option Int :=
  match db.GetTx txin.PreviousOutPoint.Hash with
  | (some prevTx, none) => (prevTx.MsgTx.TxOut[txin.PreviousOutPoint.Index]?).map TxOut.Value
  | _ => none

/-- The sum, over the given inputs, of the referenced predecessor output
values, as a mathematical integer. -/
def sumReferencedValues (db : BlockDB) (ins : List TxIn) : Int :=
  (ins.map (fun txin => (referencedValue db txin).getD 0)).sum

/-- The sum of the output values, as a mathematical integer. -/
def sumOutputValues (outs : List TxOut) : Int :=
  (outs.map TxOut.Value).sum

/-- The fee in exact integer arithmetic: the referenced predecessor output
values of the non-coinbase inputs minus the own output values. -/
def exactFee (db : BlockDB) (tx : Tx) : Int :=
  sumReferencedValues db (nonCoinbase tx.MsgTx.TxIn) - sumOutputValues tx.MsgTx.TxOut

/-- The database calls a fee computation makes when every lookup succeeds: one
`GetTx` per non-coinbase input, in input order. -/
def predecessorLookups (ins : List TxIn) : List DBCall :=
  (nonCoinbase ins).map (fun txin => DBCall.GetTx txin.PreviousOutPoint.Hash)

/-! ## Concrete transactions and databases -/

/-- A transaction record with the given inputs and outputs and no fee cached. -/
def mkRecord (txHash : Hash) (ins : List TxIn) (outs : List TxOut) : TxRecord :=
  { MsgTx := { TxIn := ins, TxOut := outs }
    txHash := txHash
    DATFileIdx := 0
    BlockTimestamp := 0
    BlockIndexInDATFile := 0
    BlockHash := List.replicate 32 9
    IndexInBlock := 0
    fee := 0
    calculatedFee := false }

/-- An output of the given value with an empty locking script. -/
def mkOut (value : Int) : TxOut :=
  { Value := value, PkScript := some [] }

/-- An input spending output `index` of transaction `hash`. -/
def mkIn (hash : Hash) (index : Nat) : TxIn :=
  { PreviousOutPoint := { Hash := hash, Index := index }, SignatureScript := some [] }

/-- The hash whose 32 bytes are all `b`. -/
def hashOf (b : Nat) : Hash := List.replicate 32 b

/-- A database that knows no transaction and no spent output. -/
def emptyDB : BlockDB :=
  { GetTx := fun _ => (none, some "tx not found")
    GetSpentTxOut := fun _ => (⟨[], 0⟩, some "spent txout not found") }

/-- A database holding one transaction, under `hashOf 1`, with the given
outputs. -/
def oneTxDB (outs : List TxOut) : BlockDB :=
  { GetTx := fun h =>
      if h = hashOf 1 then (some (mkRecord (hashOf 1) [mkIn emptyHash 4294967295] outs), none)
      else (none, some "tx not found")
    GetSpentTxOut := fun _ => (⟨[], 0⟩, some "spent txout not found") }

/-- A transaction spending outputs 0 and 1 of `hashOf 1`, with one output of
1000 satoshis, over a database in which those two outputs hold 5000 and 7000. -/
def smallTx : Tx :=
  { toTxRecord := mkRecord (hashOf 2) [mkIn (hashOf 1) 0, mkIn (hashOf 1) 1] [mkOut 1000]
    db := oneTxDB [mkOut 5000, mkOut 7000] }

/-- The same transaction over a database in which the two spent outputs each
hold the largest `int64`. -/
def overflowTx : Tx :=
  { toTxRecord := mkRecord (hashOf 2) [mkIn (hashOf 1) 0, mkIn (hashOf 1) 1] [mkOut 1000]
    db := oneTxDB [mkOut 9223372036854775807, mkOut 9223372036854775807] }

/-- The calls of `Fee` made one after the other on one instance, the database
being replaced through `SetDB` by the next entry of the list before each
call. -/
def laterCalls (tx : Tx) : List BlockDB → List FeeCall
  | [] => []
  | db :: dbs => (tx.SetDB db).Fee :: laterCalls (tx.SetDB db).Fee.tx dbs

/-- The error of the lookup of an input's predecessor transaction, when that
lookup fails. -/
def lookupError (db : BlockDB) (txin : TxIn) : Option Error :=
  (db.GetTx txin.PreviousOutPoint.Hash).2

/-- The error of the first non-coinbase input, in input order, whose
predecessor lookup fails. -/
def firstLookupError (db : BlockDB) (ins : List TxIn) : Option Error :=
  (nonCoinbase ins).findSome? (lookupError db)

/-- The referenced output index is in range: a predecessor lookup that does
not fail yields a transaction that holds the referenced output. -/
def indexInRange (db : BlockDB) (txin : TxIn) : Bool :=
  (lookupError db txin).isSome || (referencedValue db txin).isSome

/-- The transaction of `smallTx` over a database that resolves nothing. -/
def unresolvedTx : Tx :=
  { toTxRecord := mkRecord (hashOf 2) [mkIn (hashOf 1) 0, mkIn (hashOf 1) 1] [mkOut 1000]
    db := emptyDB }

/-- The end of the loop over the inputs without the arguments of the printed
line. -/
def Fee.Exit.eraseLog : Fee.Exit → Fee.Exit
  | .failed err _ => .failed err ⟨[], [], 0⟩
  | .done inValues => .done inValues
  | .panicked => .panicked

/-- The same transaction with its coinbase inputs removed. -/
def withoutCoinbase (tx : Tx) : Tx :=
  { tx with MsgTx := { tx.MsgTx with TxIn := nonCoinbase tx.MsgTx.TxIn } }

/-- A transaction with one coinbase input and one output of 50 BTC, over a
database that resolves nothing. -/
def coinbaseTx : Tx :=
  { toTxRecord := mkRecord (hashOf 3) [mkIn emptyHash 4294967295] [mkOut 5000000000]
    db := emptyDB }

/-- A transaction with one coinbase input and two outputs that each hold the
largest `int64`. -/
def overflowCoinbaseTx : Tx :=
  { toTxRecord := mkRecord (hashOf 3) [mkIn emptyHash 4294967295]
      [mkOut 9223372036854775807, mkOut 9223372036854775807]
    db := emptyDB }

/-- The byte strings an extractor yields on the scripts on which it succeeds,
in script order. -/
def extracted (f : Bytes → Bytes × Option Error) (scripts : List Bytes) : List (List Nat) :=
  scripts.filterMap (fun script =>
    match f script with
    | (bs, none) => some (sliceElems bs)
    | (_, some _) => none)

/-- The concatenation, in script order, of the byte strings extracted from the
scripts on which the extractor succeeds. -/
def concatExtracted (f : Bytes → Bytes × Option Error) (scripts : List Bytes) : List Nat :=
  (extracted f scripts).flatten

/-- The locking scripts of the outputs, in order. -/
def pkScripts (tx : Tx) : List Bytes :=
  tx.MsgTx.TxOut.map TxOut.PkScript

/-- The unlocking scripts of the inputs, in order. -/
def signatureScripts (tx : Tx) : List Bytes :=
  tx.MsgTx.TxIn.map TxIn.SignatureScript

/-- Extractors that fail on every script. -/
def failingUtils : Utils :=
  { GetOPReturnBytes := fun _ => (none, some "not an OP_RETURN script")
    GetNonOPBytesFromInputScript := fun _ => (none, some "bad script")
    GetPushdataBytesFromInputScript := fun _ => (none, some "bad script")
    GetNonOPBytesFromOutputScript := fun _ => (none, some "bad script")
    GetSatoshiEncodedData := fun _ => (none, some "bad length") }

/-- Extractors that take a script starting with the byte 106 and return the
bytes after it, and fail on every other script. -/
def markerUtils : Utils :=
  let f : Bytes → Bytes × Option Error := fun script =>
    match script with
    | some (106 :: rest) => (some rest, none)
    | _ => (none, some "no marker")
  { GetOPReturnBytes := f
    GetNonOPBytesFromInputScript := f
    GetPushdataBytesFromInputScript := f
    GetNonOPBytesFromOutputScript := f
    GetSatoshiEncodedData := f }

/-- A transaction with three outputs and three inputs whose scripts are
`106 1 2`, `5 5` and `106 3`. -/
def scriptsTx : Tx :=
  { toTxRecord := mkRecord (hashOf 4)
      [⟨⟨hashOf 1, 0⟩, some [106, 1, 2]⟩, ⟨⟨hashOf 1, 1⟩, some [5, 5]⟩,
        ⟨⟨hashOf 1, 2⟩, some [106, 3]⟩]
      [⟨10, some [106, 1, 2]⟩, ⟨20, some [5, 5]⟩, ⟨30, some [106, 3]⟩]
    db := emptyDB }

/-- The value of output number `i`, and 0 when there is no such output. -/
def valueAt (outs : List TxOut) (i : Nat) : Int :=
  match outs[i]? with
  | some txout => txout.Value
  | none => 0

/-- Output number `i` exists, no output has a higher value, and every output
before it has a lower value: `i` is the lowest index of a highest-value
output. -/
def isFirstMax (outs : List TxOut) (i : Nat) : Prop :=
  i < outs.length
    ∧ (∀ j < outs.length, valueAt outs j ≤ valueAt outs i)
    ∧ ∀ j < i, valueAt outs j < valueAt outs i

instance (outs : List TxOut) (i : Nat) : Decidable (isFirstMax outs i) := by
  unfold isFirstMax; infer_instance

/-- A transaction with empty scripts and outputs of the given values, over a
database that resolves nothing. -/
def valuesTx (values : List Int) : Tx :=
  { toTxRecord := mkRecord (hashOf 5) [mkIn (hashOf 1) 0] (values.map mkOut)
    db := emptyDB }

/-- What the loop of `FindMaxValueTxOut` keeps true of the outputs `seen` so
far: no value exceeds `maxValue`, and either nothing positive was seen and
both variables still hold 0, or `maxValueIdx` is the lowest index among
`seen` of the positive value `maxValue`. -/
def FindMaxValueTxOut.Inv (seen : List TxOut) (maxValue : Int) (maxValueIdx : Nat) : Prop :=
  (∀ j < seen.length, valueAt seen j ≤ maxValue)
    ∧ ((maxValue = 0 ∧ maxValueIdx = 0)
      ∨ (0 < maxValue ∧ maxValueIdx < seen.length ∧ valueAt seen maxValueIdx = maxValue
          ∧ ∀ j < maxValueIdx, valueAt seen j < maxValue))

/-- The number of outputs whose value is the minimal unit, 1 satoshi. -/
def countMinimal (outs : List TxOut) : Nat :=
  (outs.filter (fun txout => decide (txout.Value = 1))).length

/-- A display conversion in exact rational arithmetic: satoshis divided by
1e8. -/
def ratToBTC (satoshis : Int) : ℚ :=
  satoshis / 100000000

/-- The error of the address derivation on the lowest-index output on which it
fails. -/
def firstAddrError (extract : AddrExtractor) (outs : List TxOut) : Option Error :=
  outs.findSome? (fun txout => (extract txout.PkScript).2)

/-- The address lists derived from the locking scripts of the outputs, one
entry per output, in order. -/
def derivedAddrs (extract : AddrExtractor) (outs : List TxOut) : List (Slice Address) :=
  outs.map (fun txout => (extract txout.PkScript).1)

/-- An address derivation that fails on the empty script and otherwise yields
one address, named after the first byte of the script. -/
def firstByteExtractor : AddrExtractor := fun script =>
  match script with
  | some (b :: _) => (some [toString b], none)
  | _ => (none, some "unsupported script")

/-- A transaction whose second of three outputs has an empty locking script. -/
def badScriptTx : Tx :=
  { toTxRecord := mkRecord (hashOf 6) [mkIn (hashOf 1) 0]
      [⟨10, some [118, 169]⟩, ⟨20, some []⟩, ⟨30, none⟩]
    db := emptyDB }

/-- The key under which `GetSpendingTx` looks an output up: this transaction's
hash and the output index converted to `uint32`. -/
def spendKey (tx : Tx) (txoutIdx : Int) : SpentTxOutKey :=
  { TxHash := tx.txHash, TxOutIndex := toUint32 txoutIdx }

/-- A database in which output 0 of `hashOf 2` is spent by input 3 of
`hashOf 7`, a transaction it holds, and output 1 of `hashOf 2` by a
transaction it does not hold. -/
def spendDB : BlockDB :=
  { GetTx := fun h =>
      if h = hashOf 7 then (some (mkRecord (hashOf 7) [mkIn (hashOf 2) 0] [mkOut 900]), none)
      else (none, some "tx not found")
    GetSpentTxOut := fun key =>
      if key = ⟨hashOf 2, 0⟩ then (⟨hashOf 7, 3⟩, none)
      else if key = ⟨hashOf 2, 1⟩ then (⟨hashOf 8, 0⟩, none)
      else (⟨[], 0⟩, some "spent txout not found") }

/-- The transaction `hashOf 2` with three outputs, over `spendDB`. -/
def spentTx : Tx :=
  { toTxRecord := mkRecord (hashOf 2) [mkIn (hashOf 1) 0] [mkOut 1000, mkOut 2000, mkOut 3000]
    db := spendDB }

/-- A transaction whose input references output 5 of `hashOf 1`, over a
database in which that transaction resolves and has a single output. -/
def shortPredecessorTx : Tx :=
  { toTxRecord := mkRecord (hashOf 2) [mkIn (hashOf 1) 5] [mkOut 1000]
    db := oneTxDB [mkOut 5000] }

/-- A call of one of the methods of `Tx` that assign to no field of the
receiver, with its arguments. -/
inductive TxQuery where
  | DATFilename
  | GetBlock
  | GetOPReturnDataFromTxOut (txoutIdx : Int)
  | ConcatOPReturnDataFromTxOuts
  | GetNonOPDataFromTxIn (txinIdx : Int)
  | GetPushdataFromTxIn (txinIdx : Int)
  | GetNonOPDataFromTxOut (txoutIdx : Int)
  | ConcatNonOPDataFromTxOuts
  | ConcatNonOPDataFromTxIns
  | ConcatPushdataFromTxIns
  | ConcatSatoshiDataFromTxOuts
  | ConcatTxInScripts
  | GetTxOutAddress (txoutIdx : Int)
  | GetTxOutAddresses
  | FindMaxValueTxOut
  | HasSuspiciousOutputValues
  | GetSpendingTx (txoutIdx : Int)

/-- A call of a method of `Tx`. -/
inductive TxOp where
  | Fee
  | SetDB (db : BlockDB)
  | query (q : TxQuery)

/-- The receiver after a call. -/
def TxOp.after (op : TxOp) (tx : Tx) : Tx :=
  match op with
  | .Fee => tx.Fee.tx
  | .SetDB db => tx.SetDB db
  | .query _ => tx

/-- The receiver after a sequence of calls. -/
def runOps (tx : Tx) (ops : List TxOp) : Tx :=
  ops.foldl (fun t op => op.after t) tx

/-- Calls on `unresolvedTx`: a `Fee` that fails, the database replaced by one
that resolves the predecessor, a `Fee` that succeeds. -/
def firstOps : List TxOp :=
  [.Fee, .SetDB (oneTxDB [mkOut 5000, mkOut 7000]), .Fee]

/-- Later calls: the database replaced by one in which the spent outputs hold
other values, `Fee`, a query, the database replaced by the empty one, `Fee`. -/
def laterOps : List TxOp :=
  [.SetDB (oneTxDB [mkOut 1, mkOut 2]), .Fee, .query (.GetSpendingTx 0), .SetDB emptyDB, .Fee]

/-- Every second byte of a byte string, starting with the first. -/
def everySecond : List Nat → List Nat
  | a :: _ :: rest => a :: everySecond rest
  | _ => []

/-- Extractors that return a non-nil script whole and fail on the nil script,
with a decoder that rejects a stream of odd length and keeps every second
byte of a stream of even length. -/
def pairingUtils : Utils :=
  let whole : Bytes → Bytes × Option Error := fun script =>
    match script with
    | some bs => (some bs, none)
    | none => (none, some "no script")
  { GetOPReturnBytes := whole
    GetNonOPBytesFromInputScript := whole
    GetPushdataBytesFromInputScript := whole
    GetNonOPBytesFromOutputScript := whole
    GetSatoshiEncodedData := fun data =>
      if (sliceElems data).length % 2 = 0 then (some (everySecond (sliceElems data)), none)
      else (none, some "odd length") }

/-- A transaction with the output scripts `1 2 3`, nil and `4`. -/
def oddScriptsTx : Tx :=
  { toTxRecord := mkRecord (hashOf 4) [mkIn (hashOf 1) 0]
      [⟨10, some [1, 2, 3]⟩, ⟨20, none⟩, ⟨30, some [4]⟩]
    db := emptyDB }

/-- The integer fits a signed 64-bit integer. -/
def fitsInt64 (x : Int) : Prop :=
  -9223372036854775808 ≤ x ∧ x < 9223372036854775808

instance (x : Int) : Decidable (fitsInt64 x) := by
  unfold fitsInt64; infer_instance

/-- The number of outputs whose value is not 1 satoshi. -/
def countNonMinimal (outs : List TxOut) : Nat :=
  (outs.filter (fun txout => !decide (txout.Value = 1))).length

/-- A transaction with two inputs spending outputs 1 and 0 of `hashOf 1`, a
coinbase input between them, and outputs of 400 and 600. -/
def permutedTxA : Tx :=
  { toTxRecord := mkRecord (hashOf 2) [mkIn (hashOf 1) 1, mkIn emptyHash 0, mkIn (hashOf 1) 0]
      [mkOut 400, mkOut 600]
    db := emptyDB }

/-- The transaction `permutedTxA` with inputs and outputs reordered. -/
def permutedTxB : Tx :=
  { toTxRecord := mkRecord (hashOf 2) [mkIn (hashOf 1) 0, mkIn (hashOf 1) 1, mkIn emptyHash 0]
      [mkOut 600, mkOut 400]
    db := emptyDB }

/-- The transaction with its outputs replaced by the given list. -/
def withOutputs (tx : Tx) (outs : List TxOut) : Tx :=
  { tx with MsgTx := { tx.MsgTx with TxOut := outs } }

/-- The transaction with its inputs replaced by the given list. -/
def withInputs (tx : Tx) (ins : List TxIn) : Tx :=
  { tx with MsgTx := { tx.MsgTx with TxIn := ins } }

/-- The extractor adds nothing for this script: it fails on it, or succeeds
with no bytes. -/
def addsNothing (f : Bytes → Bytes × Option Error) (script : Bytes) : Prop :=
  (f script).2 ≠ none ∨ sliceElems (f script).1 = []

/-- The five decimal digits of a number below 100000, most significant first,
with leading zeros. -/
def fiveDigits (i : Nat) : List Char :=
  [Nat.digitChar (i / 10000 % 10), Nat.digitChar (i / 1000 % 10), Nat.digitChar (i / 100 % 10),
    Nat.digitChar (i / 10 % 10), Nat.digitChar (i % 10)]

/-- The file name the format describes: `blk`, five digits, `.dat`. -/
def paddedName (i : Nat) : String :=
  "blk" ++ String.mk (fiveDigits i) ++ ".dat"

/-- A transaction found in the block file of the given index. -/
def fileTx (fileIdx : Nat) : Tx :=
  { toTxRecord := { mkRecord (hashOf 2) [mkIn (hashOf 1) 0] [mkOut 1000] with
      DATFileIdx := fileIdx }
    db := emptyDB }

/-- Calls on `coinbaseTx`: `Fee`, the database replaced, a query. -/
def coinbaseOps : List TxOp :=
  [.Fee, .SetDB (oneTxDB [mkOut 5000, mkOut 7000]), .query .FindMaxValueTxOut]

/-- The database has not been replaced by another one since the fee was
cached: in every state on the way from the new instance `fresh` through the
calls `ops` in which a fee is cached, the database is the one in place after
all of `ops`. It holds in particular when no fee is cached after `ops`. -/
def databaseKeptSinceCached (fresh : Tx) (ops : List TxOp) : Prop :=
  ∀ n, n ≤ ops.length → (runOps fresh (ops.take n)).calculatedFee = true
    → (runOps fresh (ops.take n)).db = (runOps fresh ops).db

/-- Calls on `smallTx` that cache its fee and keep its database: `Fee`, a
query, `SetDB` with the database already in place. -/
def keptOps : List TxOp :=
  [.Fee, .query (.GetSpendingTx 0), .SetDB (oneTxDB [mkOut 5000, mkOut 7000])]

/-- The instance `smallTx` after its fee, 11000, was cached and its database
replaced by one in which the two spent outputs hold 1 and 2. -/
def staleTx : Tx :=
  runOps smallTx [.Fee, .SetDB (oneTxDB [mkOut 1, mkOut 2])]

/-! ## Arithmetic of `int64` -/

theorem wrapInt64_idem (x : Int) : wrapInt64 (wrapInt64 x) = wrapInt64 x := by
  unfold wrapInt64; omega

theorem wrapInt64_add_left (a b : Int) : wrapInt64 (wrapInt64 a + b) = wrapInt64 (a + b) := by
  unfold wrapInt64; omega

theorem wrapInt64_sub (a b : Int) : wrapInt64 (wrapInt64 a - wrapInt64 b) = wrapInt64 (a - b) := by
  unfold wrapInt64; omega

theorem wrapInt64_of_fits (x : Int) (hlo : -9223372036854775808 ≤ x)
    (hhi : x < 9223372036854775808) : wrapInt64 x = x := by
  unfold wrapInt64; omega

/-! ## The two loops of `Fee` -/

theorem Fee.outValues_eq (outs : List TxOut) (acc : Int) (hacc : wrapInt64 acc = acc) :
    Fee.outValues outs acc = wrapInt64 (acc + sumOutputValues outs) := by
  induction outs generalizing acc with
  | nil => simp [Fee.outValues, sumOutputValues, hacc]
  | cons txout rest ih =>
    rw [Fee.outValues, ih _ (wrapInt64_idem _), wrapInt64_add_left]
    simp [sumOutputValues, add_assoc]

theorem sumReferencedValues_cons (db : BlockDB) (txin : TxIn) (rest : List TxIn) :
    sumReferencedValues db (txin :: rest)
      = (referencedValue db txin).getD 0 + sumReferencedValues db rest := by
  simp [sumReferencedValues]

theorem Fee.inValues_resolved (db : BlockDB) (txHash : Hash) (ins : List TxIn)
    (hres : ∀ txin ∈ ins, txin.isCoinbase = false → (referencedValue db txin).isSome = true)
    (k : Nat) (acc : Int) (hacc : wrapInt64 acc = acc) :
    Fee.inValues db txHash ins k acc
      = ⟨.done (wrapInt64 (acc + sumReferencedValues db (nonCoinbase ins))),
          predecessorLookups ins⟩ := by
  induction ins generalizing k acc with
  | nil => simp [Fee.inValues, nonCoinbase, predecessorLookups, sumReferencedValues, hacc]
  | cons txin rest ih =>
    have hrest : ∀ t ∈ rest, t.isCoinbase = false → (referencedValue db t).isSome = true :=
      fun t ht => hres t (List.mem_cons_of_mem _ ht)
    by_cases hcb : txin.PreviousOutPoint.Hash = emptyHash
    · have hc : txin.isCoinbase = true := by simp [TxIn.isCoinbase, hcb]
      rw [Fee.inValues, if_pos hcb, ih hrest _ _ hacc]
      simp [nonCoinbase, predecessorLookups, hc]
    · have hc : txin.isCoinbase = false := by simp [TxIn.isCoinbase, hcb]
      have hsome := hres txin (List.mem_cons_self _ _) hc
      rw [Fee.inValues, if_neg hcb]
      unfold referencedValue at hsome
      have hval : (referencedValue db txin) =
          match db.GetTx txin.PreviousOutPoint.Hash with
          | (some prevTx, none) =>
            (prevTx.MsgTx.TxOut[txin.PreviousOutPoint.Index]?).map TxOut.Value
          | _ => none := rfl
      rcases hget : db.GetTx txin.PreviousOutPoint.Hash with ⟨_ | prevTx, _ | err⟩
      · simp [hget] at hsome
      · simp [hget] at hsome
      · rw [hget] at hsome hval
        rcases hout : prevTx.MsgTx.TxOut[txin.PreviousOutPoint.Index]? with _ | txout
        · simp [hout] at hsome
        · simp only [hout, Option.map_some'] at hval
          simp only [ih hrest _ _ (wrapInt64_idem _), wrapInt64_add_left]
          have hnc : nonCoinbase (txin :: rest) = txin :: nonCoinbase rest := by
            simp [nonCoinbase, hc]
          simp [predecessorLookups, hnc, sumReferencedValues_cons, hval, add_assoc, hout]
      · simp [hget] at hsome

theorem nonCoinbase_eq_self (ins : List TxIn)
    (h : ∀ txin ∈ ins, txin.PreviousOutPoint.Hash ≠ emptyHash) : nonCoinbase ins = ins := by
  unfold nonCoinbase
  rw [List.filter_eq_self]
  intro txin hmem
  simp [TxIn.isCoinbase, h txin hmem]

/-- A first call of `Fee` when every non-coinbase input resolves: the whole
effect of the call. -/
theorem Fee_of_resolved (tx : Tx) (hcache : tx.calculatedFee = false)
    (hres : ∀ txin ∈ tx.MsgTx.TxIn,
      txin.isCoinbase = false → (referencedValue tx.db txin).isSome = true) :
    tx.Fee =
      { result := .ret (wrapInt64 (exactFee tx.db tx), none)
        tx := { tx with fee := wrapInt64 (exactFee tx.db tx), calculatedFee := true }
        calls := predecessorLookups tx.MsgTx.TxIn
        printed := [] } := by
  have hin := Fee.inValues_resolved tx.db tx.txHash tx.MsgTx.TxIn hres 0 0 (by decide)
  have hout := Fee.outValues_eq tx.MsgTx.TxOut 0 (by decide)
  have hfee : wrapInt64 (wrapInt64 (0 + sumReferencedValues tx.db (nonCoinbase tx.MsgTx.TxIn))
      - wrapInt64 (0 + sumOutputValues tx.MsgTx.TxOut)) = wrapInt64 (exactFee tx.db tx) := by
    rw [wrapInt64_sub]; simp [exactFee]
  simp only [Tx.Fee, hcache, hin, hout, hfee]
  simp

/-! ## C1 -/

/-- C1, as amended. For a transaction with only non-coinbase inputs and no fee
cached, over a database in which every input's predecessor resolves and holds
the referenced output, `Fee` returns without error the difference (sum of the
referenced predecessor output values) minus (sum of the own output values)
reduced modulo 2^64 into the signed 64-bit range; it is that difference
itself whenever the difference fits a signed 64-bit integer. -/
theorem fee_is_wrapped_difference (tx : Tx) (hcache : tx.calculatedFee = false)
    (hnoncb : ∀ txin ∈ tx.MsgTx.TxIn, txin.PreviousOutPoint.Hash ≠ emptyHash)
    (hres : ∀ txin ∈ tx.MsgTx.TxIn, (referencedValue tx.db txin).isSome = true) :
    tx.Fee.result
        = .ret (wrapInt64 (sumReferencedValues tx.db tx.MsgTx.TxIn
            - sumOutputValues tx.MsgTx.TxOut), none)
      ∧ (-9223372036854775808 ≤ sumReferencedValues tx.db tx.MsgTx.TxIn
            - sumOutputValues tx.MsgTx.TxOut
          → sumReferencedValues tx.db tx.MsgTx.TxIn - sumOutputValues tx.MsgTx.TxOut
            < 9223372036854775808
          → tx.Fee.result
            = .ret (sumReferencedValues tx.db tx.MsgTx.TxIn
                - sumOutputValues tx.MsgTx.TxOut, none)) := by
  have h := Fee_of_resolved tx hcache (fun txin hmem _ => hres txin hmem)
  have hval : tx.Fee.result
      = .ret (wrapInt64 (sumReferencedValues tx.db tx.MsgTx.TxIn
          - sumOutputValues tx.MsgTx.TxOut), none) := by
    rw [h]; simp [exactFee, nonCoinbase_eq_self _ hnoncb]
  refine ⟨hval, fun hlo hhi => ?_⟩
  rw [hval, wrapInt64_of_fits _ hlo hhi]

/-- C1, witness: two inputs worth 5000 and 7000, one output of 1000, fee
11000. -/
theorem fee_is_wrapped_difference_witness :
    smallTx.Fee.result = .ret (11000, none) := by
  have h := fee_is_wrapped_difference smallTx (by decide) (by decide) (by decide)
  have hv : sumReferencedValues smallTx.db smallTx.MsgTx.TxIn
      - sumOutputValues smallTx.MsgTx.TxOut = 11000 := by decide
  rw [hv] at h
  exact h.2 (by decide) (by decide)

/-- C1, counterexample: every hypothesis of the claim holds for `overflowTx`,
whose two inputs each spend an output holding the largest signed 64-bit
value; the exact difference is 18446744073709550614 and `Fee` returns
-1002. -/
theorem fee_exact_arithmetic_counterexample :
    overflowTx.calculatedFee = false
      ∧ (∀ txin ∈ overflowTx.MsgTx.TxIn, txin.PreviousOutPoint.Hash ≠ emptyHash)
      ∧ (∀ txin ∈ overflowTx.MsgTx.TxIn, (referencedValue overflowTx.db txin).isSome = true)
      ∧ sumReferencedValues overflowTx.db overflowTx.MsgTx.TxIn
          - sumOutputValues overflowTx.MsgTx.TxOut = 18446744073709550614
      ∧ overflowTx.Fee.result = .ret (-1002, none)
      ∧ overflowTx.Fee.result
          ≠ .ret (sumReferencedValues overflowTx.db overflowTx.MsgTx.TxIn
              - sumOutputValues overflowTx.MsgTx.TxOut, none) := by
  refine ⟨by decide, by decide, by decide, by decide, by decide, by decide⟩

/-! ## C2 -/

theorem Fee_of_cached (tx : Tx) (hcache : tx.calculatedFee = true) :
    tx.Fee = { result := .ret (tx.fee, none), tx := tx, calls := [], printed := [] } := by
  simp [Tx.Fee, hcache]

theorem Fee_success_caches (tx : Tx) (v : Int) (hok : tx.Fee.result = .ret (v, none)) :
    tx.Fee.tx.calculatedFee = true ∧ tx.Fee.tx.fee = v := by
  by_cases hcache : tx.calculatedFee = true
  · rw [Fee_of_cached tx hcache] at hok ⊢
    simp only [Outcome.ret.injEq, Prod.mk.injEq, and_true] at hok
    exact ⟨hcache, hok⟩
  · have hc : tx.calculatedFee = false := by simpa using hcache
    unfold Tx.Fee at hok ⊢
    simp only [hc, Bool.false_eq_true, if_false] at hok ⊢
    rcases hexit : (Fee.inValues tx.db tx.txHash tx.MsgTx.TxIn 0 0).exit with iv | ⟨err, log⟩ | _
    · simp only [hexit, Outcome.ret.injEq, Prod.mk.injEq, and_true] at hok ⊢
      exact ⟨trivial, hok⟩
    · simp [hexit] at hok
    · simp [hexit] at hok

theorem laterCalls_of_cached (dbs : List BlockDB) (tx : Tx) (hcache : tx.calculatedFee = true) :
    ∀ c ∈ laterCalls tx dbs, c.result = .ret (tx.fee, none) ∧ c.calls = [] := by
  induction dbs generalizing tx with
  | nil => intro c hc; simp [laterCalls] at hc
  | cons db dbs ih =>
    intro c hc
    have hset : (tx.SetDB db).calculatedFee = true := hcache
    have hfee : (tx.SetDB db).Fee
        = { result := .ret (tx.fee, none), tx := tx.SetDB db, calls := [], printed := [] } :=
      Fee_of_cached _ hset
    simp only [laterCalls, List.mem_cons] at hc
    rcases hc with rfl | hc
    · simp [hfee]
    · rw [hfee] at hc
      exact ih (tx.SetDB db) hset c hc

/-- C2. If a call of `Fee` returns the value `v` without error, then the next
call on the same instance returns `v` without error and makes no database
call, and so does every call of any later sequence of calls, whatever
database `SetDB` has put in place before each of them. -/
theorem fee_memoized (tx : Tx) (v : Int) (hok : tx.Fee.result = .ret (v, none))
    (dbs : List BlockDB) :
    (tx.Fee.tx.Fee.result = .ret (v, none) ∧ tx.Fee.tx.Fee.calls = [])
      ∧ ∀ c ∈ laterCalls tx.Fee.tx dbs, c.result = .ret (v, none) ∧ c.calls = [] := by
  obtain ⟨hflag, hval⟩ := Fee_success_caches tx v hok
  refine ⟨?_, ?_⟩
  · rw [Fee_of_cached _ hflag]; simp [hval]
  · intro c hc
    have := laterCalls_of_cached dbs tx.Fee.tx hflag c hc
    rwa [hval] at this

/-- C2, witness: after the fee 11000 of `smallTx` is computed, calls against
a database that resolves nothing still return 11000 and look nothing up. -/
theorem fee_memoized_witness :
    smallTx.Fee.result = .ret (11000, none)
      ∧ ∀ c ∈ laterCalls smallTx.Fee.tx [emptyDB, emptyDB],
          c.result = .ret (11000, none) ∧ c.calls = [] :=
  ⟨by decide, (fee_memoized smallTx 11000 (by decide) [emptyDB, emptyDB]).2⟩

/-! ## C3 -/

theorem referencedValue_isSome_of_inRange (db : BlockDB) (txin : TxIn)
    (hrange : indexInRange db txin = true) (hnoerr : lookupError db txin = none) :
    (referencedValue db txin).isSome = true := by
  simpa [indexInRange, hnoerr] using hrange

theorem firstLookupError_cons_coinbase (db : BlockDB) (txin : TxIn) (rest : List TxIn)
    (hc : txin.isCoinbase = true) :
    firstLookupError db (txin :: rest) = firstLookupError db rest := by
  simp [firstLookupError, nonCoinbase, hc]

theorem firstLookupError_cons_nonCoinbase (db : BlockDB) (txin : TxIn) (rest : List TxIn)
    (hc : txin.isCoinbase = false) :
    firstLookupError db (txin :: rest)
      = match lookupError db txin with
        | some e => some e
        | none => firstLookupError db rest := by
  rcases h : lookupError db txin with _ | e <;>
    simp [firstLookupError, nonCoinbase, hc, List.findSome?_cons, h]

theorem firstLookupError_isSome_iff (db : BlockDB) (ins : List TxIn) :
    (firstLookupError db ins).isSome = true
      ↔ ∃ txin ∈ ins, txin.isCoinbase = false ∧ (lookupError db txin).isSome = true := by
  simp [firstLookupError, nonCoinbase, List.findSome?_isSome_iff, and_assoc]

/-- The loop over the inputs when some lookup fails: it ends with the error of
the first failing non-coinbase input. -/
theorem Fee.inValues_failed (db : BlockDB) (txHash : Hash) (ins : List TxIn)
    (hrange : ∀ txin ∈ ins, txin.isCoinbase = false → indexInRange db txin = true)
    (e : Error) (hfirst : firstLookupError db ins = some e) (k : Nat) (acc : Int) :
    ∃ log, (Fee.inValues db txHash ins k acc).exit = .failed e log := by
  induction ins generalizing k acc with
  | nil => simp [firstLookupError, nonCoinbase] at hfirst
  | cons txin rest ih =>
    have hrest : ∀ t ∈ rest, t.isCoinbase = false → indexInRange db t = true :=
      fun t ht => hrange t (List.mem_cons_of_mem _ ht)
    by_cases hcb : txin.PreviousOutPoint.Hash = emptyHash
    · have hc : txin.isCoinbase = true := by simp [TxIn.isCoinbase, hcb]
      rw [firstLookupError_cons_coinbase db txin rest hc] at hfirst
      rw [Fee.inValues, if_pos hcb]
      exact ih hrest hfirst _ _
    · have hc : txin.isCoinbase = false := by simp [TxIn.isCoinbase, hcb]
      rw [firstLookupError_cons_nonCoinbase db txin rest hc] at hfirst
      rw [Fee.inValues, if_neg hcb]
      rcases herr : lookupError db txin with _ | err
      · have hsome := referencedValue_isSome_of_inRange db txin
          (hrange txin (List.mem_cons_self _ _) hc) herr
        rw [herr] at hfirst
        unfold referencedValue at hsome
        unfold lookupError at herr
        rcases hget : db.GetTx txin.PreviousOutPoint.Hash with ⟨_ | prevTx, _ | err⟩
        · simp [hget] at hsome
        · simp [hget] at herr
        · rcases hout : prevTx.MsgTx.TxOut[txin.PreviousOutPoint.Index]? with _ | txout
          · simp [hget, hout] at hsome
          · simp only [hout]
            exact ih hrest hfirst _ _
        · simp [hget] at herr
      · rw [herr] at hfirst
        simp only [Option.some.injEq] at hfirst
        unfold lookupError at herr
        rcases hget : db.GetTx txin.PreviousOutPoint.Hash with ⟨p, _ | err2⟩
        · simp [hget] at herr
        · simp only [hget] at herr
          simp only [Option.some.injEq] at herr
          subst herr hfirst
          cases p <;> exact ⟨_, rfl⟩

/-- A first call of `Fee` when some lookup fails: the error of the first
failing input is returned and the receiver is left as it was. -/
theorem Fee_of_failed (tx : Tx) (hcache : tx.calculatedFee = false)
    (hrange : ∀ txin ∈ tx.MsgTx.TxIn,
      txin.isCoinbase = false → indexInRange tx.db txin = true)
    (e : Error) (hfirst : firstLookupError tx.db tx.MsgTx.TxIn = some e) :
    tx.Fee.result = .ret (0, some e) ∧ tx.Fee.tx = tx := by
  obtain ⟨log, hlog⟩ := Fee.inValues_failed tx.db tx.txHash tx.MsgTx.TxIn hrange e hfirst 0 0
  simp [Tx.Fee, hcache, hlog]

/-- C3. For a transaction with no fee cached whose referenced output indexes
are in range: `Fee` returns an error exactly when the predecessor lookup of
some non-coinbase input fails; when none fails it returns the fee without
error; when one fails it returns the error of the first failing input in
input order and leaves the receiver, the cached fee and the computed flag
included, as it was, so that a later call, once `SetDB` has put in place a
database resolving every predecessor, returns without error the fee over that
database (the exact difference reduced to a signed 64-bit value, which is the
exact difference whenever that fits). -/
theorem fee_failure_not_cached (tx : Tx) (hcache : tx.calculatedFee = false)
    (hrange : ∀ txin ∈ tx.MsgTx.TxIn,
      txin.isCoinbase = false → indexInRange tx.db txin = true) :
    ((∃ v e, tx.Fee.result = .ret (v, some e))
        ↔ ∃ txin ∈ tx.MsgTx.TxIn,
            txin.isCoinbase = false ∧ (lookupError tx.db txin).isSome = true)
      ∧ (firstLookupError tx.db tx.MsgTx.TxIn = none
          → tx.Fee.result = .ret (wrapInt64 (exactFee tx.db tx), none))
      ∧ ∀ e, firstLookupError tx.db tx.MsgTx.TxIn = some e →
          tx.Fee.result = .ret (0, some e)
          ∧ tx.Fee.tx = tx
          ∧ ∀ db : BlockDB,
              (∀ txin ∈ tx.MsgTx.TxIn,
                txin.isCoinbase = false → (referencedValue db txin).isSome = true) →
              (tx.Fee.tx.SetDB db).Fee.result = .ret (wrapInt64 (exactFee db tx), none)
              ∧ (-9223372036854775808 ≤ exactFee db tx → exactFee db tx < 9223372036854775808
                  → (tx.Fee.tx.SetDB db).Fee.result = .ret (exactFee db tx, none)) := by
  have hnone : firstLookupError tx.db tx.MsgTx.TxIn = none
      → tx.Fee.result = .ret (wrapInt64 (exactFee tx.db tx), none) := by
    intro hfirst
    have hres : ∀ txin ∈ tx.MsgTx.TxIn,
        txin.isCoinbase = false → (referencedValue tx.db txin).isSome = true := by
      intro txin hmem hc
      refine referencedValue_isSome_of_inRange tx.db txin (hrange txin hmem hc) ?_
      have hall := List.findSome?_eq_none_iff.1 hfirst
      exact hall txin (by simp [nonCoinbase, hmem, hc])
    rw [Fee_of_resolved tx hcache hres]
  have hsome : ∀ e, firstLookupError tx.db tx.MsgTx.TxIn = some e →
      tx.Fee.result = .ret (0, some e) ∧ tx.Fee.tx = tx :=
    fun e he => Fee_of_failed tx hcache hrange e he
  refine ⟨?_, hnone, ?_⟩
  · rw [← firstLookupError_isSome_iff]
    rcases hfirst : firstLookupError tx.db tx.MsgTx.TxIn with _ | e
    · simp [hnone hfirst]
    · simp only [Option.isSome_some, iff_true]
      exact ⟨0, e, (hsome e hfirst).1⟩
  · intro e he
    obtain ⟨hres, hsame⟩ := hsome e he
    refine ⟨hres, hsame, fun db hdb => ?_⟩
    have hretry : (tx.Fee.tx.SetDB db).Fee.result = .ret (wrapInt64 (exactFee db tx), none) := by
      rw [hsame, Fee_of_resolved (tx.SetDB db) hcache hdb]
      rfl
    refine ⟨hretry, fun hlo hhi => ?_⟩
    rw [hretry, wrapInt64_of_fits _ hlo hhi]

/-- C3, witness: over a database that resolves nothing `Fee` returns the
lookup error of the first input and caches nothing; the retry over a
database holding the predecessor returns the fee 11000. -/
theorem fee_failure_not_cached_witness :
    unresolvedTx.Fee.result = .ret (0, some "tx not found")
      ∧ unresolvedTx.Fee.tx = unresolvedTx
      ∧ (unresolvedTx.Fee.tx.SetDB (oneTxDB [mkOut 5000, mkOut 7000])).Fee.result
          = .ret (11000, none) := by
  have h := (fee_failure_not_cached unresolvedTx (by decide) (by decide)).2.2
    "tx not found" (by decide)
  refine ⟨h.1, h.2.1, ?_⟩
  have hretry := (h.2.2 (oneTxDB [mkOut 5000, mkOut 7000]) (by decide)).1
  have hv : exactFee (oneTxDB [mkOut 5000, mkOut 7000]) unresolvedTx = 11000 := by decide
  rw [hv] at hretry
  exact hretry

/-! ## C4 -/

theorem nonCoinbase_cons_coinbase (txin : TxIn) (rest : List TxIn)
    (hc : txin.isCoinbase = true) : nonCoinbase (txin :: rest) = nonCoinbase rest := by
  simp [nonCoinbase, hc]

theorem nonCoinbase_cons_nonCoinbase (txin : TxIn) (rest : List TxIn)
    (hc : txin.isCoinbase = false) : nonCoinbase (txin :: rest) = txin :: nonCoinbase rest := by
  simp [nonCoinbase, hc]

/-- The loop over the inputs does the same on the inputs and on the
non-coinbase inputs alone, but for the input number it would print. -/
theorem Fee.inValues_nonCoinbase (db : BlockDB) (txHash : Hash) (ins : List TxIn)
    (k j : Nat) (acc : Int) :
    (Fee.inValues db txHash ins k acc).exit.eraseLog
        = (Fee.inValues db txHash (nonCoinbase ins) j acc).exit.eraseLog
      ∧ (Fee.inValues db txHash ins k acc).calls
        = (Fee.inValues db txHash (nonCoinbase ins) j acc).calls := by
  induction ins generalizing k j acc with
  | nil => simp [nonCoinbase, Fee.inValues, Fee.Exit.eraseLog]
  | cons txin rest ih =>
    by_cases hcb : txin.PreviousOutPoint.Hash = emptyHash
    · have hc : txin.isCoinbase = true := by simp [TxIn.isCoinbase, hcb]
      rw [nonCoinbase_cons_coinbase txin rest hc, Fee.inValues, if_pos hcb]
      exact ih _ _ _
    · have hc : txin.isCoinbase = false := by simp [TxIn.isCoinbase, hcb]
      rw [nonCoinbase_cons_nonCoinbase txin rest hc, Fee.inValues, Fee.inValues,
        if_neg hcb, if_neg hcb]
      rcases db.GetTx txin.PreviousOutPoint.Hash with ⟨_ | prevTx, _ | err⟩
      · exact ⟨rfl, rfl⟩
      · exact ⟨rfl, rfl⟩
      · dsimp only
        rcases prevTx.MsgTx.TxOut[txin.PreviousOutPoint.Index]? with _ | txout
        · exact ⟨rfl, rfl⟩
        · have h := ih (k + 1) (j + 1) (wrapInt64 (acc + txout.Value))
          exact ⟨h.1, by simp [h.2]⟩
      · exact ⟨rfl, rfl⟩

theorem Fee_withoutCoinbase (tx : Tx) :
    tx.Fee.result = (withoutCoinbase tx).Fee.result
      ∧ tx.Fee.calls = (withoutCoinbase tx).Fee.calls := by
  by_cases hcache : tx.calculatedFee = true
  · have hcache2 : (withoutCoinbase tx).calculatedFee = true := hcache
    rw [Fee_of_cached tx hcache, Fee_of_cached _ hcache2]
    exact ⟨rfl, rfl⟩
  · have hc : tx.calculatedFee = false := by simpa using hcache
    have hc2 : (withoutCoinbase tx).calculatedFee = false := hc
    obtain ⟨hexit, hcalls⟩ := Fee.inValues_nonCoinbase tx.db tx.txHash tx.MsgTx.TxIn 0 0 0
    have hexit2 : (Fee.inValues tx.db tx.txHash tx.MsgTx.TxIn 0 0).exit.eraseLog
        = (Fee.inValues (withoutCoinbase tx).db (withoutCoinbase tx).txHash
            (withoutCoinbase tx).MsgTx.TxIn 0 0).exit.eraseLog := hexit
    have hcalls2 : (Fee.inValues tx.db tx.txHash tx.MsgTx.TxIn 0 0).calls
        = (Fee.inValues (withoutCoinbase tx).db (withoutCoinbase tx).txHash
            (withoutCoinbase tx).MsgTx.TxIn 0 0).calls := hcalls
    have hout : (withoutCoinbase tx).MsgTx.TxOut = tx.MsgTx.TxOut := rfl
    unfold Tx.Fee
    simp only [hc, hc2, Bool.false_eq_true, if_false, hout]
    generalize (Fee.inValues (withoutCoinbase tx).db (withoutCoinbase tx).txHash
      (withoutCoinbase tx).MsgTx.TxIn 0 0) = r2 at hexit2 hcalls2 ⊢
    generalize (Fee.inValues tx.db tx.txHash tx.MsgTx.TxIn 0 0) = r1 at hexit2 hcalls2 ⊢
    rcases r1 with ⟨_ | _ | _, c1⟩ <;> rcases r2 with ⟨_ | _ | _, c2⟩ <;>
      simp_all [Fee.Exit.eraseLog]

theorem nonCoinbase_eq_nil (ins : List TxIn)
    (h : ∀ txin ∈ ins, txin.PreviousOutPoint.Hash = emptyHash) : nonCoinbase ins = [] := by
  unfold nonCoinbase
  rw [List.filter_eq_nil_iff]
  intro txin hmem
  simp [TxIn.isCoinbase, h txin hmem]

/-- A first call of `Fee` on a transaction whose inputs are all coinbase
inputs: no database call, and the 64-bit value of 0 minus the sum of the own
output values. -/
theorem Fee_of_all_coinbase (tx : Tx) (hcache : tx.calculatedFee = false)
    (hall : ∀ txin ∈ tx.MsgTx.TxIn, txin.PreviousOutPoint.Hash = emptyHash) :
    tx.Fee.result = .ret (wrapInt64 (0 - sumOutputValues tx.MsgTx.TxOut), none)
      ∧ tx.Fee.calls = [] := by
  have hnil : nonCoinbase tx.MsgTx.TxIn = [] := nonCoinbase_eq_nil _ hall
  have hres : ∀ txin ∈ tx.MsgTx.TxIn,
      txin.isCoinbase = false → (referencedValue tx.db txin).isSome = true := by
    intro txin hmem hc
    have : txin.isCoinbase = true := by simp [TxIn.isCoinbase, hall txin hmem]
    rw [this] at hc
    exact absurd hc (by decide)
  have hfee := Fee_of_resolved tx hcache hres
  have hexact : exactFee tx.db tx = 0 - sumOutputValues tx.MsgTx.TxOut := by
    unfold exactFee
    rw [hnil]
    simp [sumReferencedValues]
  have hcalls : predecessorLookups tx.MsgTx.TxIn = [] := by
    simp [predecessorLookups, hnil]
  rw [hexact, hcalls] at hfee
  exact ⟨by rw [hfee], by rw [hfee]⟩

/-- C4, counterexample: `overflowCoinbaseTx` is a newly created instance with
only a coinbase input; 0 minus the sum of its output values is
-18446744073709551614, and `Fee` returns 2. -/
theorem coinbase_fee_counterexample :
    overflowCoinbaseTx.calculatedFee = false
      ∧ (∀ txin ∈ overflowCoinbaseTx.MsgTx.TxIn, txin.PreviousOutPoint.Hash = emptyHash)
      ∧ 0 - sumOutputValues overflowCoinbaseTx.MsgTx.TxOut = -18446744073709551614
      ∧ overflowCoinbaseTx.Fee.result = .ret (2, none)
      ∧ overflowCoinbaseTx.Fee.result
          ≠ .ret (0 - sumOutputValues overflowCoinbaseTx.MsgTx.TxOut, none) := by
  refine ⟨by decide, by decide, by decide, by decide, by decide⟩

/-! ## C5 and C6: the aggregations -/

theorem goAppend_some {α : Type} (acc : List α) (t : Slice α) :
    goAppend (some acc) t = some (acc ++ sliceElems t) := by
  unfold goAppend
  rcases h : sliceElems t with _ | ⟨y, ys⟩ <;> simp [sliceElems]

/-- The loop shared by the four aggregations: from the bytes `acc` it ends with
`acc` followed by the concatenation of what was extracted. -/
theorem foldl_skip_concat {α : Type} (f : Bytes → Bytes × Option Error) (proj : α → Bytes)
    (xs : List α) (acc : List Nat) :
    xs.foldl (fun (allBytes : Bytes) x =>
        match f (proj x) with
        | (_, some _) => allBytes
        | (bs, none) => goAppend allBytes bs) (some acc)
      = some (acc ++ concatExtracted f (xs.map proj)) := by
  induction xs generalizing acc with
  | nil => simp [concatExtracted, extracted]
  | cons x rest ih =>
    rw [List.foldl_cons]
    rcases hfx : f (proj x) with ⟨bs, _ | err⟩
    · simp only [goAppend_some, ih]
      simp [concatExtracted, extracted, hfx, List.filterMap_cons]
    · simp only [ih]
      simp [concatExtracted, extracted, hfx, List.filterMap_cons]

theorem concatExtracted_of_all_fail (f : Bytes → Bytes × Option Error) (scripts : List Bytes)
    (hfail : ∀ script ∈ scripts, (f script).2 ≠ none) : concatExtracted f scripts = [] := by
  have hnil : extracted f scripts = [] := by
    unfold extracted
    rw [List.filterMap_eq_nil_iff]
    intro script hmem
    rcases hf : f script with ⟨bs, _ | err⟩
    · exact absurd (by rw [hf]) (hfail script hmem)
    · rfl
  simp [concatExtracted, hnil]

/-- The four aggregations, each as the concatenation of what its extractor
yields. -/
theorem aggregations_eq_concatExtracted (u : Utils) (tx : Tx) :
    (tx.ConcatOPReturnDataFromTxOuts u).1
        = some (concatExtracted u.GetOPReturnBytes (pkScripts tx))
      ∧ (tx.ConcatNonOPDataFromTxOuts u).1
        = some (concatExtracted u.GetNonOPBytesFromOutputScript (pkScripts tx))
      ∧ (tx.ConcatNonOPDataFromTxIns u).1
        = some (concatExtracted u.GetNonOPBytesFromInputScript (signatureScripts tx))
      ∧ (tx.ConcatPushdataFromTxIns u).1
        = some (concatExtracted u.GetPushdataBytesFromInputScript (signatureScripts tx)) :=
  ⟨foldl_skip_concat u.GetOPReturnBytes TxOut.PkScript tx.MsgTx.TxOut [],
    foldl_skip_concat u.GetNonOPBytesFromOutputScript TxOut.PkScript tx.MsgTx.TxOut [],
    foldl_skip_concat u.GetNonOPBytesFromInputScript TxIn.SignatureScript tx.MsgTx.TxIn [],
    foldl_skip_concat u.GetPushdataBytesFromInputScript TxIn.SignatureScript tx.MsgTx.TxIn []⟩

/-- C5. Each of the four aggregations returns exactly the concatenation, in
script order, of the byte strings its extractor yields on the scripts on
which it succeeds; scripts on which the extractor fails add nothing. -/
theorem concat_is_concatenation_of_extracted (u : Utils) (tx : Tx) :
    (tx.ConcatOPReturnDataFromTxOuts u).1
        = some (concatExtracted u.GetOPReturnBytes (pkScripts tx))
      ∧ (tx.ConcatNonOPDataFromTxOuts u).1
        = some (concatExtracted u.GetNonOPBytesFromOutputScript (pkScripts tx))
      ∧ (tx.ConcatNonOPDataFromTxIns u).1
        = some (concatExtracted u.GetNonOPBytesFromInputScript (signatureScripts tx))
      ∧ (tx.ConcatPushdataFromTxIns u).1
        = some (concatExtracted u.GetPushdataBytesFromInputScript (signatureScripts tx)) :=
  aggregations_eq_concatExtracted u tx

/-- An example of the aggregations: with extractors that accept the scripts starting with the
byte 106, the scripts `106 1 2`, `5 5`, `106 3` aggregate to `1 2 3`. -/
theorem concat_example :
    (scriptsTx.ConcatOPReturnDataFromTxOuts markerUtils).1 = some [1, 2, 3]
      ∧ (scriptsTx.ConcatPushdataFromTxIns markerUtils).1 = some [1, 2, 3] := by
  decide

/-- C6. The four aggregations return a nil error for every transaction and
every extractor, and a non-nil byte slice; when the extractor fails on every
script, which includes the case of no script at all, that slice is the
non-nil slice of length zero. -/
theorem concat_never_fails (u : Utils) (tx : Tx) :
    ((tx.ConcatOPReturnDataFromTxOuts u).2 = none
        ∧ (tx.ConcatNonOPDataFromTxOuts u).2 = none
        ∧ (tx.ConcatNonOPDataFromTxIns u).2 = none
        ∧ (tx.ConcatPushdataFromTxIns u).2 = none)
      ∧ ((∀ script ∈ pkScripts tx, (u.GetOPReturnBytes script).2 ≠ none)
          → tx.ConcatOPReturnDataFromTxOuts u = (some [], none))
      ∧ ((∀ script ∈ pkScripts tx, (u.GetNonOPBytesFromOutputScript script).2 ≠ none)
          → tx.ConcatNonOPDataFromTxOuts u = (some [], none))
      ∧ ((∀ script ∈ signatureScripts tx, (u.GetNonOPBytesFromInputScript script).2 ≠ none)
          → tx.ConcatNonOPDataFromTxIns u = (some [], none))
      ∧ ((∀ script ∈ signatureScripts tx, (u.GetPushdataBytesFromInputScript script).2 ≠ none)
          → tx.ConcatPushdataFromTxIns u = (some [], none)) := by
  obtain ⟨h1, h2, h3, h4⟩ := aggregations_eq_concatExtracted u tx
  refine ⟨⟨rfl, rfl, rfl, rfl⟩, fun h => ?_, fun h => ?_, fun h => ?_, fun h => ?_⟩
  · exact Prod.ext (by rw [h1, concatExtracted_of_all_fail _ _ h]) rfl
  · exact Prod.ext (by rw [h2, concatExtracted_of_all_fail _ _ h]) rfl
  · exact Prod.ext (by rw [h3, concatExtracted_of_all_fail _ _ h]) rfl
  · exact Prod.ext (by rw [h4, concatExtracted_of_all_fail _ _ h]) rfl

/-- C6, witness: with extractors that fail on every script, the aggregations
over the three outputs and three inputs of `scriptsTx` return the empty
non-nil slice and a nil error. -/
theorem concat_never_fails_witness :
    scriptsTx.ConcatOPReturnDataFromTxOuts failingUtils = (some [], none)
      ∧ scriptsTx.ConcatNonOPDataFromTxOuts failingUtils = (some [], none)
      ∧ scriptsTx.ConcatNonOPDataFromTxIns failingUtils = (some [], none)
      ∧ scriptsTx.ConcatPushdataFromTxIns failingUtils = (some [], none) :=
  have h := (concat_never_fails failingUtils scriptsTx).2
  ⟨h.1 (by decide), h.2.1 (by decide), h.2.2.1 (by decide), h.2.2.2 (by decide)⟩

/-! ## C7: the largest output -/

theorem valueAt_append_left (seen : List TxOut) (txout : TxOut) (j : Nat)
    (hj : j < seen.length) : valueAt (seen ++ [txout]) j = valueAt seen j := by
  simp [valueAt, List.getElem?_append_left hj]

theorem valueAt_append_length (seen : List TxOut) (txout : TxOut) :
    valueAt (seen ++ [txout]) seen.length = txout.Value := by
  simp [valueAt]

theorem FindMaxValueTxOut.Inv_step (seen : List TxOut) (txout : TxOut) (maxValue : Int)
    (maxValueIdx : Nat) (hinv : FindMaxValueTxOut.Inv seen maxValue maxValueIdx) :
    (txout.Value > maxValue → FindMaxValueTxOut.Inv (seen ++ [txout]) txout.Value seen.length)
      ∧ (¬ txout.Value > maxValue
          → FindMaxValueTxOut.Inv (seen ++ [txout]) maxValue maxValueIdx) := by
  obtain ⟨hle, hcase⟩ := hinv
  have hlen : (seen ++ [txout]).length = seen.length + 1 := by simp
  have hnonneg : 0 ≤ maxValue := by
    rcases hcase with ⟨h0, _⟩ | ⟨hpos, _⟩ <;> omega
  constructor
  · intro hgt
    refine ⟨fun j hj => ?_, Or.inr ⟨by omega, by omega, valueAt_append_length _ _, fun j hj => ?_⟩⟩
    · rw [hlen] at hj
      rcases Nat.lt_succ_iff_lt_or_eq.1 hj with hj | rfl
      · rw [valueAt_append_left _ _ _ hj]; have := hle j hj; omega
      · rw [valueAt_append_length]
    · rw [valueAt_append_left _ _ _ hj]; have := hle j hj; omega
  · intro hngt
    refine ⟨fun j hj => ?_, ?_⟩
    · rw [hlen] at hj
      rcases Nat.lt_succ_iff_lt_or_eq.1 hj with hj | rfl
      · rw [valueAt_append_left _ _ _ hj]; exact hle j hj
      · rw [valueAt_append_length]; omega
    · rcases hcase with h0 | ⟨hpos, hidx, hval, hbefore⟩
      · exact Or.inl h0
      · refine Or.inr ⟨hpos, by omega, ?_, fun j hj => ?_⟩
        · rw [valueAt_append_left _ _ _ hidx]; exact hval
        · rw [valueAt_append_left _ _ _ (by omega)]; exact hbefore j hj

/-- The loop of `FindMaxValueTxOut` ends with its invariant true of all the
outputs, for some final `maxValue`. -/
theorem FindMaxValueTxOut.loop_inv (rest seen : List TxOut) (maxValue : Int) (maxValueIdx : Nat)
    (hinv : FindMaxValueTxOut.Inv seen maxValue maxValueIdx) :
    ∃ m, FindMaxValueTxOut.Inv (seen ++ rest) m
      (FindMaxValueTxOut.loop rest seen.length maxValue maxValueIdx) := by
  induction rest generalizing seen maxValue maxValueIdx with
  | nil => exact ⟨maxValue, by simpa [FindMaxValueTxOut.loop] using hinv⟩
  | cons txout rest ih =>
    have hstep := FindMaxValueTxOut.Inv_step seen txout maxValue maxValueIdx hinv
    have happ : seen ++ txout :: rest = (seen ++ [txout]) ++ rest := by simp
    have hlen : seen.length + 1 = (seen ++ [txout]).length := by simp
    rw [FindMaxValueTxOut.loop, happ, hlen]
    by_cases hgt : txout.Value > maxValue
    · rw [if_pos hgt]
      have := ih (seen ++ [txout]) txout.Value seen.length (hstep.1 hgt)
      exact this
    · rw [if_neg hgt]
      exact ih (seen ++ [txout]) maxValue maxValueIdx (hstep.2 hgt)

theorem FindMaxValueTxOut_inv (tx : Tx) :
    ∃ m, FindMaxValueTxOut.Inv tx.MsgTx.TxOut m tx.FindMaxValueTxOut := by
  have h := FindMaxValueTxOut.loop_inv tx.MsgTx.TxOut [] 0 0
    ⟨fun j hj => absurd hj (by simp), Or.inl ⟨rfl, rfl⟩⟩
  simpa [Tx.FindMaxValueTxOut] using h

theorem valueAt_nonneg (outs : List TxOut) (hnonneg : ∀ txout ∈ outs, 0 ≤ txout.Value)
    (j : Nat) : 0 ≤ valueAt outs j := by
  unfold valueAt
  rcases h : outs[j]? with _ | txout
  · simp
  · exact hnonneg txout (List.getElem?_mem h)

/-- C7, as amended. For every transaction with at least one output and no
negative output value, `FindMaxValueTxOut` returns the index of a
highest-value output, the lowest index among the outputs tied for the highest
value. -/
theorem findMax_is_first_max_of_nonneg (tx : Tx) (hne : tx.MsgTx.TxOut ≠ [])
    (hnonneg : ∀ txout ∈ tx.MsgTx.TxOut, 0 ≤ txout.Value) :
    isFirstMax tx.MsgTx.TxOut tx.FindMaxValueTxOut := by
  obtain ⟨m, hle, hcase⟩ := FindMaxValueTxOut_inv tx
  have hlen : 0 < tx.MsgTx.TxOut.length := List.length_pos.2 hne
  rcases hcase with ⟨hm, hidx⟩ | ⟨hpos, hidx, hval, hbefore⟩
  · rw [hidx]
    have hzero : ∀ j, j < tx.MsgTx.TxOut.length → valueAt tx.MsgTx.TxOut j = 0 := by
      intro j hj
      have h1 := hle j hj
      have h2 := valueAt_nonneg _ hnonneg j
      omega
    refine ⟨hlen, fun j hj => ?_, fun j hj => absurd hj (by omega)⟩
    rw [hzero j hj, hzero 0 hlen]
  · refine ⟨hidx, fun j hj => ?_, fun j hj => ?_⟩
    · rw [hval]; exact hle j hj
    · rw [hval]; exact hbefore j hj

/-- C7, witness: the output values 10, 30, 30, 5 give index 1, the first of
the two outputs holding the highest value. -/
theorem findMax_is_first_max_of_nonneg_witness :
    (valuesTx [10, 30, 30, 5]).FindMaxValueTxOut = 1
      ∧ isFirstMax (valuesTx [10, 30, 30, 5]).MsgTx.TxOut
          (valuesTx [10, 30, 30, 5]).FindMaxValueTxOut :=
  ⟨by decide,
    findMax_is_first_max_of_nonneg (valuesTx [10, 30, 30, 5]) (by decide) (by decide)⟩

/-- C7, counterexample: the output values -5, -3 are signed 64-bit integers
and there are two outputs; the highest value, -3, is at index 1, and
`FindMaxValueTxOut` returns 0, which is not the index of a highest-value
output. -/
theorem findMax_counterexample :
    (valuesTx [-5, -3]).MsgTx.TxOut ≠ []
      ∧ (∀ txout ∈ (valuesTx [-5, -3]).MsgTx.TxOut,
          -9223372036854775808 ≤ txout.Value ∧ txout.Value < 9223372036854775808)
      ∧ (valuesTx [-5, -3]).FindMaxValueTxOut = 0
      ∧ valueAt (valuesTx [-5, -3]).MsgTx.TxOut 0 < valueAt (valuesTx [-5, -3]).MsgTx.TxOut 1
      ∧ ¬ isFirstMax (valuesTx [-5, -3]).MsgTx.TxOut (valuesTx [-5, -3]).FindMaxValueTxOut := by
  refine ⟨by decide, by decide, by decide, by decide, by decide⟩

/-! ## C8: the dust pattern -/

theorem numTinyValues_eq {BTC : Type} [DecidableEq BTC] (ToBTC : Int → BTC) (tinyBTC : BTC)
    (hconv : ∀ v : Int, ToBTC v = tinyBTC ↔ v = 1) (outs : List TxOut) (n : Int) :
    outs.foldl (fun (numTinyValues : Int) txout =>
        if ToBTC txout.Value = tinyBTC then numTinyValues + 1 else numTinyValues) n
      = n + (countMinimal outs : Int) := by
  induction outs generalizing n with
  | nil => simp [countMinimal]
  | cons txout rest ih =>
    rw [List.foldl_cons, ih]
    by_cases h : txout.Value = 1
    · have hc : ToBTC txout.Value = tinyBTC := (hconv _).2 h
      simp only [countMinimal] at *
      simp [h, (hconv 1).2 rfl, List.filter_cons]
      ring
    · have hc : ¬ ToBTC txout.Value = tinyBTC := fun hc => h ((hconv _).1 hc)
      simp only [countMinimal] at *
      simp [hc, h, List.filter_cons]

theorem ratToBTC_eq_tiny_iff (v : Int) : ratToBTC v = 1 / 100000000 ↔ v = 1 := by
  unfold ratToBTC
  constructor
  · intro h
    have h2 : (v : ℚ) = 1 := by
      have := congrArg (fun q : ℚ => q * 100000000) h
      simpa using this
    exact_mod_cast h2
  · rintro rfl
    simp

/-- C8. Whenever comparing the display conversion of a value with the
conversion constant singles out exactly the value 1 satoshi,
`HasSuspiciousOutputValues` returns true if and only if the number of outputs
of exactly 1 satoshi is greater than zero and equals the number of outputs
minus one; the values 1, 1, 1, 50000 give true, 1, 1, 1, 1 give false and
50000, 60000 give false. -/
theorem hasSuspiciousOutputValues_iff {BTC : Type} [DecidableEq BTC] (ToBTC : Int → BTC)
    (tinyBTC : BTC) (hconv : ∀ v : Int, ToBTC v = tinyBTC ↔ v = 1) :
    (∀ tx : Tx, tx.HasSuspiciousOutputValues ToBTC tinyBTC = true
        ↔ 0 < countMinimal tx.MsgTx.TxOut
          ∧ (countMinimal tx.MsgTx.TxOut : Int) = (tx.MsgTx.TxOut.length : Int) - 1)
      ∧ (valuesTx [1, 1, 1, 50000]).HasSuspiciousOutputValues ToBTC tinyBTC = true
      ∧ (valuesTx [1, 1, 1, 1]).HasSuspiciousOutputValues ToBTC tinyBTC = false
      ∧ (valuesTx [50000, 60000]).HasSuspiciousOutputValues ToBTC tinyBTC = false := by
  have hiff : ∀ tx : Tx, tx.HasSuspiciousOutputValues ToBTC tinyBTC = true
      ↔ 0 < countMinimal tx.MsgTx.TxOut
        ∧ (countMinimal tx.MsgTx.TxOut : Int) = (tx.MsgTx.TxOut.length : Int) - 1 := by
    intro tx
    unfold Tx.HasSuspiciousOutputValues
    simp only [numTinyValues_eq ToBTC tinyBTC hconv, zero_add]
    by_cases hAB : (countMinimal tx.MsgTx.TxOut : Int) > 0
        ∧ (countMinimal tx.MsgTx.TxOut : Int) = (tx.MsgTx.TxOut.length : Int) - 1
    · rw [if_pos hAB]
      simp only [true_iff]
      exact ⟨by omega, hAB.2⟩
    · rw [if_neg hAB]
      simp only [Bool.false_eq_true, false_iff]
      intro h
      exact hAB ⟨by omega, h.2⟩
  refine ⟨hiff, (hiff _).2 (by decide), ?_, ?_⟩
  · have := (hiff (valuesTx [1, 1, 1, 1])).not.2 (by decide)
    simpa using this
  · have := (hiff (valuesTx [50000, 60000])).not.2 (by decide)
    simpa using this

/-- C8, witness: with the conversion to BTC in exact rational arithmetic and
the constant 1/100000000, the three examples come out as stated. -/
theorem hasSuspiciousOutputValues_iff_witness :
    (valuesTx [1, 1, 1, 50000]).HasSuspiciousOutputValues ratToBTC (1 / 100000000) = true
      ∧ (valuesTx [1, 1, 1, 1]).HasSuspiciousOutputValues ratToBTC (1 / 100000000) = false
      ∧ (valuesTx [50000, 60000]).HasSuspiciousOutputValues ratToBTC (1 / 100000000) = false :=
  (hasSuspiciousOutputValues_iff ratToBTC (1 / 100000000) ratToBTC_eq_tiny_iff).2

/-! ## C9: addresses -/

theorem set_length_append {α : Type} (written : List α) (a b : α) (rest : List α) :
    (written ++ a :: rest).set written.length b = written ++ b :: rest := by
  induction written with
  | nil => simp
  | cons x xs ih => simp [ih]

/-- The loop of `GetTxOutAddresses`, entered at output number `written.length`
with the entries `written` in place and nil in the remaining ones. -/
theorem GetTxOutAddresses.loop_eq (extract : AddrExtractor) (rest : List TxOut)
    (written : List (Slice Address)) :
    GetTxOutAddresses.loop extract rest written.length
        (written ++ List.replicate rest.length none)
      = match firstAddrError extract rest with
        | some e => (none, some e)
        | none => (some (written ++ derivedAddrs extract rest), none) := by
  induction rest generalizing written with
  | nil => simp [GetTxOutAddresses.loop, firstAddrError, derivedAddrs]
  | cons txout rest ih =>
    rw [GetTxOutAddresses.loop]
    rcases hext : extract txout.PkScript with ⟨addresses, _ | err⟩
    · have hset : (written ++ List.replicate (txout :: rest).length none).set written.length
          addresses = (written ++ [addresses]) ++ List.replicate rest.length none := by
        simp [List.replicate_succ, set_length_append]
      have hlen : written.length + 1 = (written ++ [addresses]).length := by simp
      simp only [hset, hlen, ih]
      simp [firstAddrError, derivedAddrs, List.findSome?_cons, hext]
    · simp [firstAddrError, List.findSome?_cons, hext]

theorem GetTxOutAddresses_eq (extract : AddrExtractor) (tx : Tx) :
    tx.GetTxOutAddresses extract
      = match firstAddrError extract tx.MsgTx.TxOut with
        | some e => (none, some e)
        | none => (some (derivedAddrs extract tx.MsgTx.TxOut), none) := by
  have h := GetTxOutAddresses.loop_eq extract tx.MsgTx.TxOut []
  simpa [Tx.GetTxOutAddresses] using h

/-- C9. If the address derivation fails for some output, `GetTxOutAddresses`
returns a nil list and the very error produced for the lowest-index failing
output; otherwise it returns a nil error and a list with one entry per
output whose i-th entry is the address list derived from the i-th locking
script. For an index in range `GetTxOutAddress` returns the derivation's
error unchanged with a nil list when the derivation of that output fails,
and otherwise the derived address list, the i-th entry of the list
`GetTxOutAddresses` builds. -/
theorem addresses_propagate_errors (extract : AddrExtractor) (tx : Tx) :
    (∀ e, firstAddrError extract tx.MsgTx.TxOut = some e
        → tx.GetTxOutAddresses extract = (none, some e))
      ∧ (firstAddrError extract tx.MsgTx.TxOut = none
        → tx.GetTxOutAddresses extract = (some (derivedAddrs extract tx.MsgTx.TxOut), none)
          ∧ (derivedAddrs extract tx.MsgTx.TxOut).length = tx.MsgTx.TxOut.length)
      ∧ ∀ (i : Nat) (txout : TxOut), tx.MsgTx.TxOut[i]? = some txout →
          (derivedAddrs extract tx.MsgTx.TxOut)[i]? = some (extract txout.PkScript).1
          ∧ (∀ e, (extract txout.PkScript).2 = some e
              → tx.GetTxOutAddress extract (i : Int) = .ret (none, some e))
          ∧ ((extract txout.PkScript).2 = none
              → tx.GetTxOutAddress extract (i : Int) = .ret ((extract txout.PkScript).1, none)) := by
  have hall := GetTxOutAddresses_eq extract tx
  refine ⟨fun e he => by rw [hall, he], fun hnone => ⟨by rw [hall, hnone], by simp [derivedAddrs]⟩,
    fun i txout hi => ?_⟩
  have hidx : goIndex tx.MsgTx.TxOut (i : Int) = some txout := by
    simp [goIndex, hi]
  refine ⟨by simp [derivedAddrs, hi], fun e he => ?_, fun hnone => ?_⟩
  · unfold Tx.GetTxOutAddress
    rw [hidx]
    rcases hext : extract txout.PkScript with ⟨addresses, _ | err⟩
    · simp [hext] at he
    · simp only [hext, Option.some.injEq] at he
      simp [hext, he]
  · unfold Tx.GetTxOutAddress
    rw [hidx]
    rcases hext : extract txout.PkScript with ⟨addresses, _ | err⟩
    · simp [hext]
    · simp [hext] at hnone

/-- C9, witness: the derivation fails on the second and third output of
`badScriptTx`; `GetTxOutAddresses` returns the error of the second, and
`GetTxOutAddress` the address of output 0 and the error of output 1. -/
theorem addresses_propagate_errors_witness :
    badScriptTx.GetTxOutAddresses firstByteExtractor = (none, some "unsupported script")
      ∧ badScriptTx.GetTxOutAddress firstByteExtractor 0 = .ret (some ["118"], none)
      ∧ badScriptTx.GetTxOutAddress firstByteExtractor 1
          = .ret (none, some "unsupported script") :=
  have h := addresses_propagate_errors firstByteExtractor badScriptTx
  ⟨h.1 "unsupported script" (by decide),
    (h.2.2 0 ⟨10, some [118, 169]⟩ (by decide)).2.2 (by decide),
    (h.2.2 1 ⟨20, some []⟩ (by decide)).2.1 "unsupported script" (by decide)⟩

/-! ## C10: the spender -/

/-- C10. `GetSpendingTx` looks up the key made of this transaction's hash and
the output index (as a `uint32`, the index itself when it is between 0 and
2^32 - 1). When that lookup fails, it returns a nil transaction and the
lookup's error and makes no other database call; when it yields a record, it
returns exactly what the database's `GetTx` returns for the record's
spending-transaction hash, transaction or error. -/
theorem getSpendingTx_follows_spend_index (tx : Tx) (txoutIdx : Int) :
    (∀ e, (tx.db.GetSpentTxOut (spendKey tx txoutIdx)).2 = some e
        → tx.GetSpendingTx txoutIdx
          = ⟨(none, some e), [.GetSpentTxOut (spendKey tx txoutIdx)]⟩)
      ∧ ((tx.db.GetSpentTxOut (spendKey tx txoutIdx)).2 = none
        → tx.GetSpendingTx txoutIdx
          = ⟨tx.db.GetTx (tx.db.GetSpentTxOut (spendKey tx txoutIdx)).1.InputTxHash,
              [.GetSpentTxOut (spendKey tx txoutIdx),
                .GetTx (tx.db.GetSpentTxOut (spendKey tx txoutIdx)).1.InputTxHash]⟩)
      ∧ (spendKey tx txoutIdx).TxHash = tx.txHash
      ∧ (0 ≤ txoutIdx → txoutIdx < 4294967296
        → ((spendKey tx txoutIdx).TxOutIndex : Int) = txoutIdx) := by
  refine ⟨fun e he => ?_, fun hnone => ?_, rfl, fun hlo hhi => ?_⟩
  · unfold Tx.GetSpendingTx
    change (tx.db.GetSpentTxOut (spendKey tx txoutIdx)).2 = some e at he
    rcases hget : tx.db.GetSpentTxOut (spendKey tx txoutIdx) with ⟨spentTxOut, _ | err⟩
    · simp [hget] at he
    · simp only [hget, Option.some.injEq] at he
      have hget2 : tx.db.GetSpentTxOut ⟨tx.txHash, toUint32 txoutIdx⟩
          = (spentTxOut, some err) := hget
      simp [hget2, he, spendKey]
  · unfold Tx.GetSpendingTx
    rcases hget : tx.db.GetSpentTxOut (spendKey tx txoutIdx) with ⟨spentTxOut, _ | err⟩
    · have hget2 : tx.db.GetSpentTxOut ⟨tx.txHash, toUint32 txoutIdx⟩
          = (spentTxOut, none) := hget
      simp [hget2, spendKey]
    · simp [hget] at hnone
  · simp only [spendKey, toUint32]
    omega

/-- C10, witness: over `spendDB`, output 0 of `spentTx` resolves to the
spending transaction `hashOf 7`, output 1 gives the error of looking up the
spender `hashOf 8`, and output 2, which the spend index does not hold, gives
the spend index's error after one database call. -/
theorem getSpendingTx_follows_spend_index_witness :
    (spentTx.GetSpendingTx 0).result
        = (some (mkRecord (hashOf 7) [mkIn (hashOf 2) 0] [mkOut 900]), none)
      ∧ (spentTx.GetSpendingTx 1).result = (none, some "tx not found")
      ∧ spentTx.GetSpendingTx 2
          = ⟨(none, some "spent txout not found"), [.GetSpentTxOut ⟨hashOf 2, 2⟩]⟩ :=
  ⟨by rw [(getSpendingTx_follows_spend_index spentTx 0).2.1 (by decide)]; decide,
    by rw [(getSpendingTx_follows_spend_index spentTx 1).2.1 (by decide)]; decide,
    (getSpendingTx_follows_spend_index spentTx 2).1 "spent txout not found" (by decide)⟩

/-! ## C11: out-of-range indexes -/

theorem goIndex_isSome_iff {α : Type} (xs : List α) (i : Int) :
    (∃ x, goIndex xs i = some x) ↔ 0 ≤ i ∧ i < (xs.length : Int) := by
  unfold goIndex
  by_cases h : 0 ≤ i
  · rw [if_pos h]
    constructor
    · rintro ⟨x, hx⟩
      have hlt : i.toNat < xs.length := (List.getElem?_eq_some.1 hx).1
      exact ⟨h, by omega⟩
    · rintro ⟨_, hlt⟩
      have hlt2 : i.toNat < xs.length := by omega
      exact ⟨xs[i.toNat], List.getElem?_eq_getElem hlt2⟩
  · rw [if_neg h]
    constructor
    · rintro ⟨x, hx⟩; exact absurd hx (by simp)
    · rintro ⟨h0, _⟩; exact absurd h0 h

/-- `Fee` returns, with a value or an error, when the referenced output
indexes are in range. -/
theorem Fee_returns_of_inRange (tx : Tx)
    (hrange : ∀ txin ∈ tx.MsgTx.TxIn,
      txin.isCoinbase = false → indexInRange tx.db txin = true) :
    ∃ v e, tx.Fee.result = .ret (v, e) := by
  by_cases hcache : tx.calculatedFee = true
  · exact ⟨tx.fee, none, by rw [Fee_of_cached tx hcache]⟩
  · have hc : tx.calculatedFee = false := by simpa using hcache
    rcases hfirst : firstLookupError tx.db tx.MsgTx.TxIn with _ | e
    · have hres : ∀ txin ∈ tx.MsgTx.TxIn,
          txin.isCoinbase = false → (referencedValue tx.db txin).isSome = true := by
        intro txin hmem hcb
        refine referencedValue_isSome_of_inRange tx.db txin (hrange txin hmem hcb) ?_
        exact List.findSome?_eq_none_iff.1 hfirst txin (by simp [nonCoinbase, hmem, hcb])
      exact ⟨_, none, by rw [Fee_of_resolved tx hc hres]⟩
    · exact ⟨0, some e, (Fee_of_failed tx hc hrange e hfirst).1⟩

/-- C11, as amended. `Fee` returns a value or an error for every transaction
and database in which every predecessor lookup that does not fail yields a
transaction holding the referenced output, and each index-taking operation
returns a value or an error exactly for the indexes from 0 up to, and not
including, the number of scripts it indexes. -/
theorem operations_return_when_in_range (u : Utils) (extract : AddrExtractor) (tx : Tx) :
    ((∀ txin ∈ tx.MsgTx.TxIn, txin.isCoinbase = false → indexInRange tx.db txin = true)
        → ∃ v e, tx.Fee.result = .ret (v, e))
      ∧ ∀ i : Int,
          ((∃ r, tx.GetOPReturnDataFromTxOut u i = .ret r)
              ↔ 0 ≤ i ∧ i < (tx.MsgTx.TxOut.length : Int))
          ∧ ((∃ r, tx.GetNonOPDataFromTxOut u i = .ret r)
              ↔ 0 ≤ i ∧ i < (tx.MsgTx.TxOut.length : Int))
          ∧ ((∃ r, tx.GetTxOutAddress extract i = .ret r)
              ↔ 0 ≤ i ∧ i < (tx.MsgTx.TxOut.length : Int))
          ∧ ((∃ r, tx.GetNonOPDataFromTxIn u i = .ret r)
              ↔ 0 ≤ i ∧ i < (tx.MsgTx.TxIn.length : Int))
          ∧ ((∃ r, tx.GetPushdataFromTxIn u i = .ret r)
              ↔ 0 ≤ i ∧ i < (tx.MsgTx.TxIn.length : Int)) := by
  refine ⟨Fee_returns_of_inRange tx, fun i => ⟨?_, ?_, ?_, ?_, ?_⟩⟩
  · rw [← goIndex_isSome_iff]
    unfold Tx.GetOPReturnDataFromTxOut
    rcases goIndex tx.MsgTx.TxOut i with _ | txout <;> simp
  · rw [← goIndex_isSome_iff]
    unfold Tx.GetNonOPDataFromTxOut
    rcases goIndex tx.MsgTx.TxOut i with _ | txout <;> simp
  · rw [← goIndex_isSome_iff]
    unfold Tx.GetTxOutAddress
    rcases goIndex tx.MsgTx.TxOut i with _ | txout
    · simp
    · rcases hext : extract txout.PkScript with ⟨addresses, _ | err⟩ <;> simp [hext]
  · rw [← goIndex_isSome_iff]
    unfold Tx.GetNonOPDataFromTxIn
    rcases goIndex tx.MsgTx.TxIn i with _ | txin <;> simp
  · rw [← goIndex_isSome_iff]
    unfold Tx.GetPushdataFromTxIn
    rcases goIndex tx.MsgTx.TxIn i with _ | txin <;> simp

/-- C11, witness: with every index in range, `Fee` on `smallTx` and the
index-taking operations at index 2 of the three scripts of `scriptsTx`
return. -/
theorem operations_return_when_in_range_witness :
    (∃ v e, smallTx.Fee.result = .ret (v, e))
      ∧ (∃ r, scriptsTx.GetOPReturnDataFromTxOut markerUtils 2 = .ret r)
      ∧ (∃ r, scriptsTx.GetPushdataFromTxIn markerUtils 2 = .ret r) :=
  ⟨(operations_return_when_in_range markerUtils firstByteExtractor smallTx).1 (by decide),
    ((operations_return_when_in_range markerUtils firstByteExtractor scriptsTx).2 2).1.2
      (by decide),
    ((operations_return_when_in_range markerUtils firstByteExtractor scriptsTx).2 2).2.2.2.2.2
      (by decide)⟩

/-- C11, counterexample: the predecessor of the input of `shortPredecessorTx`
resolves and has one output, the input references output 5, and `Fee`
aborts; on `scriptsTx`, with three outputs and three inputs, the
index-taking operations abort at the indexes -1 and 3. -/
theorem operations_abort_counterexample :
    lookupError shortPredecessorTx.db (mkIn (hashOf 1) 5) = none
      ∧ shortPredecessorTx.Fee.result = .panic
      ∧ scriptsTx.GetOPReturnDataFromTxOut markerUtils (-1) = .panic
      ∧ scriptsTx.GetOPReturnDataFromTxOut markerUtils 3 = .panic
      ∧ scriptsTx.GetNonOPDataFromTxOut markerUtils 3 = .panic
      ∧ scriptsTx.GetNonOPDataFromTxIn markerUtils (-1) = .panic
      ∧ scriptsTx.GetPushdataFromTxIn markerUtils 3 = .panic
      ∧ scriptsTx.GetTxOutAddress firstByteExtractor 3 = .panic := by
  refine ⟨by decide, by decide, by decide, by decide, by decide, by decide, by decide,
    by decide⟩

/-! ## C12: the fee cache over sequences of calls -/

/-- A first call of `Fee` either leaves the receiver as it was and returns no
fee, or returns a fee and caches it. -/
theorem Fee_tx_cases (tx : Tx) (hcache : tx.calculatedFee = false) :
    (tx.Fee.tx = tx ∧ ∀ v, tx.Fee.result ≠ .ret (v, none))
      ∨ ∃ v, tx.Fee.result = .ret (v, none)
          ∧ tx.Fee.tx.calculatedFee = true ∧ tx.Fee.tx.fee = v := by
  unfold Tx.Fee
  simp only [hcache, Bool.false_eq_true, if_false]
  rcases hexit : (Fee.inValues tx.db tx.txHash tx.MsgTx.TxIn 0 0).exit with iv | ⟨err, log⟩ | _
  · exact Or.inr ⟨_, rfl, rfl, rfl⟩
  · exact Or.inl ⟨rfl, fun v h => by simp at h⟩
  · exact Or.inl ⟨rfl, fun v h => by simp at h⟩

theorem TxOp.after_of_cached (op : TxOp) (tx : Tx) (hcache : tx.calculatedFee = true) :
    (op.after tx).calculatedFee = true ∧ (op.after tx).fee = tx.fee := by
  cases op with
  | Fee => simp only [TxOp.after]; rw [Fee_of_cached tx hcache]; exact ⟨hcache, rfl⟩
  | SetDB db => exact ⟨hcache, rfl⟩
  | query q => exact ⟨hcache, rfl⟩

theorem TxOp.after_change (op : TxOp) (tx : Tx)
    (hchange : (op.after tx).calculatedFee ≠ tx.calculatedFee ∨ (op.after tx).fee ≠ tx.fee) :
    op = TxOp.Fee ∧ tx.calculatedFee = false
      ∧ ∃ v, tx.Fee.result = .ret (v, none)
          ∧ (op.after tx).calculatedFee = true ∧ (op.after tx).fee = v := by
  cases op with
  | Fee =>
    by_cases hcache : tx.calculatedFee = true
    · obtain ⟨h1, h2⟩ := TxOp.after_of_cached TxOp.Fee tx hcache
      rcases hchange with h | h
      · exact absurd (h1.trans hcache.symm) h
      · exact absurd h2 h
    · have hc : tx.calculatedFee = false := by simpa using hcache
      rcases Fee_tx_cases tx hc with ⟨hsame, _⟩ | ⟨v, hv⟩
      · have : TxOp.Fee.after tx = tx := hsame
        rw [this] at hchange
        rcases hchange with h | h <;> exact absurd rfl h
      · exact ⟨rfl, hc, v, hv⟩
  | SetDB db => rcases hchange with h | h <;> exact absurd rfl h
  | query q => rcases hchange with h | h <;> exact absurd rfl h

theorem runOps_append (tx : Tx) (ops later : List TxOp) :
    runOps tx (ops ++ later) = runOps (runOps tx ops) later := by
  simp [runOps, List.foldl_append]

theorem runOps_of_cached (later : List TxOp) (tx : Tx) (hcache : tx.calculatedFee = true) :
    (runOps tx later).calculatedFee = true ∧ (runOps tx later).fee = tx.fee := by
  induction later generalizing tx with
  | nil => exact ⟨hcache, rfl⟩
  | cons op rest ih =>
    obtain ⟨h1, h2⟩ := TxOp.after_of_cached op tx hcache
    have h := ih (op.after tx) h1
    exact ⟨h.1, h.2.trans h2⟩

theorem runOps_cached_has_cause (ops : List TxOp) (tx : Tx) (hstart : tx.calculatedFee = false)
    (hend : (runOps tx ops).calculatedFee = true) :
    ∃ pre post, ops = pre ++ TxOp.Fee :: post
      ∧ (runOps tx pre).calculatedFee = false
      ∧ (runOps tx pre).Fee.result = .ret ((runOps tx ops).fee, none) := by
  induction ops generalizing tx with
  | nil => rw [show runOps tx [] = tx from rfl, hstart] at hend; exact absurd hend (by decide)
  | cons op rest ih =>
    have hrun : runOps tx (op :: rest) = runOps (op.after tx) rest := rfl
    by_cases hset : (op.after tx).calculatedFee = true
    · obtain ⟨hop, _, v, hv, _, hfee⟩ :=
        TxOp.after_change op tx (Or.inl (by rw [hset, hstart]; decide))
      refine ⟨[], rest, by simp [hop], hstart, ?_⟩
      rw [hrun, (runOps_of_cached rest (op.after tx) hset).2, hfee]
      exact hv
    · have hc : (op.after tx).calculatedFee = false := by simpa using hset
      obtain ⟨pre, post, hsplit, hpre, hres⟩ := ih (op.after tx) hc (by rw [← hrun]; exact hend)
      exact ⟨op :: pre, post, by simp [hsplit], hpre, by rw [hrun]; exact hres⟩

/-- C12. Take any sequence `ops` of calls (`Fee`, `SetDB`, queries) on a
transaction that starts with no fee cached. A further call that changes the
computed flag or the cached fee is a `Fee` call that finds the flag unset,
returns a fee without error, and stores that fee with the flag set. If the
flag is set after `ops`, then `ops` contains a `Fee` call made with the flag
unset that returned, without error, the fee now cached; and whatever calls
follow, the flag stays set and the cached fee stays the same. -/
theorem fee_cache_set_at_most_once (tx : Tx) (hstart : tx.calculatedFee = false)
    (ops later : List TxOp) (op : TxOp) :
    (((op.after (runOps tx ops)).calculatedFee ≠ (runOps tx ops).calculatedFee
          ∨ (op.after (runOps tx ops)).fee ≠ (runOps tx ops).fee)
        → op = TxOp.Fee ∧ (runOps tx ops).calculatedFee = false
          ∧ ∃ v, (runOps tx ops).Fee.result = .ret (v, none)
              ∧ (op.after (runOps tx ops)).calculatedFee = true
              ∧ (op.after (runOps tx ops)).fee = v)
      ∧ ((runOps tx ops).calculatedFee = true
        → (∃ pre post, ops = pre ++ TxOp.Fee :: post
            ∧ (runOps tx pre).calculatedFee = false
            ∧ (runOps tx pre).Fee.result = .ret ((runOps tx ops).fee, none))
          ∧ (runOps tx (ops ++ later)).calculatedFee = true
          ∧ (runOps tx (ops ++ later)).fee = (runOps tx ops).fee) := by
  refine ⟨TxOp.after_change op (runOps tx ops), fun hset => ?_⟩
  refine ⟨runOps_cached_has_cause ops tx hstart hset, ?_⟩
  rw [runOps_append]
  exact runOps_of_cached later (runOps tx ops) hset

/-- C12, witness: on `unresolvedTx` the first `Fee` fails and caches nothing,
the second, over a resolving database, caches 11000, and after five more
calls, two of them `Fee` over other databases, the cache still holds
11000. -/
theorem fee_cache_set_at_most_once_witness :
    (runOps unresolvedTx [TxOp.Fee]).calculatedFee = false
      ∧ (runOps unresolvedTx firstOps).calculatedFee = true
      ∧ (runOps unresolvedTx firstOps).fee = 11000
      ∧ (runOps unresolvedTx (firstOps ++ laterOps)).calculatedFee = true
      ∧ (runOps unresolvedTx (firstOps ++ laterOps)).fee = 11000 := by
  have h := (fee_cache_set_at_most_once unresolvedTx (by decide) firstOps laterOps
    TxOp.Fee).2 (by decide)
  have hfee : (runOps unresolvedTx firstOps).fee = 11000 := by decide
  exact ⟨by decide, by decide, hfee, h.2.1, h.2.2.trans hfee⟩

/-! ## C14: the decoded payload -/

/-- C14. `ConcatSatoshiDataFromTxOuts` returns exactly what the decoder
`GetSatoshiEncodedData` returns, bytes and error, on the one byte stream
`ConcatNonOPDataFromTxOuts` produces, which is the concatenation of what the
non-push extraction yields on the output scripts on which it succeeds; so it
returns an error exactly when the decoder rejects that stream. -/
theorem concatSatoshiData_is_decoder_of_concat (u : Utils) (tx : Tx) :
    tx.ConcatSatoshiDataFromTxOuts u
        = u.GetSatoshiEncodedData (tx.ConcatNonOPDataFromTxOuts u).1
      ∧ tx.ConcatSatoshiDataFromTxOuts u
        = u.GetSatoshiEncodedData
            (some (concatExtracted u.GetNonOPBytesFromOutputScript (pkScripts tx)))
      ∧ ((tx.ConcatSatoshiDataFromTxOuts u).2 ≠ none
        ↔ (u.GetSatoshiEncodedData
            (some (concatExtracted u.GetNonOPBytesFromOutputScript (pkScripts tx)))).2
              ≠ none) := by
  have hconcat := (aggregations_eq_concatExtracted u tx).2.1
  have hfirst : tx.ConcatSatoshiDataFromTxOuts u
      = u.GetSatoshiEncodedData (tx.ConcatNonOPDataFromTxOuts u).1 := by
    unfold Tx.ConcatSatoshiDataFromTxOuts
    have herr : (tx.ConcatNonOPDataFromTxOuts u).2 = none := rfl
    rcases hc : tx.ConcatNonOPDataFromTxOuts u with ⟨data, _ | err⟩
    · rfl
    · rw [hc] at herr; exact absurd herr (by simp)
  have hsecond : tx.ConcatSatoshiDataFromTxOuts u
      = u.GetSatoshiEncodedData
          (some (concatExtracted u.GetNonOPBytesFromOutputScript (pkScripts tx))) := by
    rw [hfirst, hconcat]
  exact ⟨hfirst, hsecond, by rw [hsecond]⟩

/-- C14, witness: the output scripts `1 2 3`, nil and `4` have odd lengths or
fail to extract; the stream `1 2 3 4` is decoded as a whole, to `1 3`. -/
theorem concatSatoshiData_is_decoder_of_concat_witness :
    (oddScriptsTx.ConcatNonOPDataFromTxOuts pairingUtils).1 = some [1, 2, 3, 4]
      ∧ oddScriptsTx.ConcatSatoshiDataFromTxOuts pairingUtils = (some [1, 3], none) := by
  refine ⟨by decide, ?_⟩
  rw [(concatSatoshiData_is_decoder_of_concat pairingUtils oddScriptsTx).2.1]
  decide

/-! ## C15: the largest output when nothing is positive -/

theorem valueAt_of_getElem? (outs : List TxOut) (j : Nat) (txout : TxOut)
    (h : outs[j]? = some txout) : valueAt outs j = txout.Value := by
  simp [valueAt, h]

/-- C15. `FindMaxValueTxOut` returns 0 whenever no output has a strictly
positive value, the empty output list included, whichever output is the
largest; whenever some output value is strictly positive, the index it
returns is in range and is the lowest index holding the maximum value. -/
theorem findMax_zero_or_first_max (tx : Tx) :
    ((∀ txout ∈ tx.MsgTx.TxOut, txout.Value ≤ 0) → tx.FindMaxValueTxOut = 0)
      ∧ ((∃ txout ∈ tx.MsgTx.TxOut, 0 < txout.Value)
        → isFirstMax tx.MsgTx.TxOut tx.FindMaxValueTxOut) := by
  obtain ⟨m, hle, hcase⟩ := FindMaxValueTxOut_inv tx
  constructor
  · intro hnonpos
    rcases hcase with ⟨_, hidx⟩ | ⟨hpos, hidx, hval, _⟩
    · exact hidx
    · have hget : tx.MsgTx.TxOut[tx.FindMaxValueTxOut]?
          = some (tx.MsgTx.TxOut[tx.FindMaxValueTxOut]) := List.getElem?_eq_getElem hidx
      have h1 := valueAt_of_getElem? _ _ _ hget
      have h2 := hnonpos _ (List.getElem?_mem hget)
      omega
  · rintro ⟨txout, hmem, hpos⟩
    obtain ⟨j, hj⟩ := List.mem_iff_getElem?.1 hmem
    have hlt : j < tx.MsgTx.TxOut.length := (List.getElem?_eq_some.1 hj).1
    have h1 := valueAt_of_getElem? _ _ _ hj
    have h2 := hle j hlt
    rcases hcase with ⟨hm, _⟩ | ⟨_, hidx, hval, hbefore⟩
    · omega
    · refine ⟨hidx, fun k hk => ?_, fun k hk => ?_⟩
      · rw [hval]; exact hle k hk
      · rw [hval]; exact hbefore k hk

/-- C15, witness: no outputs, the values 0, 0 and the values -5, -3 give
index 0; the values -1, 7, 7 give index 1. -/
theorem findMax_zero_or_first_max_witness :
    (valuesTx []).FindMaxValueTxOut = 0
      ∧ (valuesTx [0, 0]).FindMaxValueTxOut = 0
      ∧ (valuesTx [-5, -3]).FindMaxValueTxOut = 0
      ∧ (valuesTx [-1, 7, 7]).FindMaxValueTxOut = 1
      ∧ isFirstMax (valuesTx [-1, 7, 7]).MsgTx.TxOut (valuesTx [-1, 7, 7]).FindMaxValueTxOut :=
  ⟨(findMax_zero_or_first_max (valuesTx [])).1 (by decide),
    (findMax_zero_or_first_max (valuesTx [0, 0])).1 (by decide),
    (findMax_zero_or_first_max (valuesTx [-5, -3])).1 (by decide),
    by decide,
    (findMax_zero_or_first_max (valuesTx [-1, 7, 7])).2 ⟨mkOut 7, by decide, by decide⟩⟩

/-! ## Values in the signed 64-bit range -/

theorem wrapInt64_fits (x : Int) : fitsInt64 (wrapInt64 x) := by
  unfold fitsInt64 wrapInt64; omega

theorem wrapInt64_congruent (x : Int) : (wrapInt64 x - x) % 18446744073709551616 = 0 := by
  unfold wrapInt64; omega

/-! ## C17: what the dust pattern implies -/

theorem countMinimal_add_countNonMinimal (outs : List TxOut) :
    countMinimal outs + countNonMinimal outs = outs.length := by
  induction outs with
  | nil => rfl
  | cons txout rest ih =>
    unfold countMinimal countNonMinimal at *
    by_cases h : txout.Value = 1 <;> simp [List.filter_cons, h] <;> omega

theorem HasSuspiciousOutputValues_eq_true_iff {BTC : Type} [DecidableEq BTC]
    (ToBTC : Int → BTC) (tinyBTC : BTC) (hconv : ∀ v : Int, ToBTC v = tinyBTC ↔ v = 1)
    (tx : Tx) :
    tx.HasSuspiciousOutputValues ToBTC tinyBTC = true
      ↔ 0 < countMinimal tx.MsgTx.TxOut
        ∧ countMinimal tx.MsgTx.TxOut + 1 = tx.MsgTx.TxOut.length := by
  unfold Tx.HasSuspiciousOutputValues
  simp only [numTinyValues_eq ToBTC tinyBTC hconv, zero_add]
  by_cases hAB : (countMinimal tx.MsgTx.TxOut : Int) > 0
      ∧ (countMinimal tx.MsgTx.TxOut : Int) = (tx.MsgTx.TxOut.length : Int) - 1
  · rw [if_pos hAB]
    simp only [true_iff]
    exact ⟨by omega, by omega⟩
  · rw [if_neg hAB]
    simp only [Bool.false_eq_true, false_iff]
    intro h
    exact hAB ⟨by omega, by omega⟩

/-- C17. Whenever comparing the display conversion of a value with the
conversion constant singles out exactly the value 1 satoshi: if
`HasSuspiciousOutputValues` returns true, the transaction has at least two
outputs and exactly one of them has a value other than 1 satoshi; it returns
false for every transaction with no output or one output, and for every
transaction all of whose outputs are 1 satoshi. -/
theorem hasSuspiciousOutputValues_implies {BTC : Type} [DecidableEq BTC]
    (ToBTC : Int → BTC) (tinyBTC : BTC) (hconv : ∀ v : Int, ToBTC v = tinyBTC ↔ v = 1)
    (tx : Tx) :
    (tx.HasSuspiciousOutputValues ToBTC tinyBTC = true
        → 2 ≤ tx.MsgTx.TxOut.length ∧ countNonMinimal tx.MsgTx.TxOut = 1)
      ∧ (tx.MsgTx.TxOut.length ≤ 1 → tx.HasSuspiciousOutputValues ToBTC tinyBTC = false)
      ∧ ((∀ txout ∈ tx.MsgTx.TxOut, txout.Value = 1)
        → tx.HasSuspiciousOutputValues ToBTC tinyBTC = false) := by
  have hiff := HasSuspiciousOutputValues_eq_true_iff ToBTC tinyBTC hconv tx
  have hsum := countMinimal_add_countNonMinimal tx.MsgTx.TxOut
  refine ⟨fun htrue => ?_, fun hshort => ?_, fun hall => ?_⟩
  · obtain ⟨hpos, hcount⟩ := hiff.1 htrue
    exact ⟨by omega, by omega⟩
  · rw [← Bool.not_eq_true]
    intro htrue
    obtain ⟨hpos, hcount⟩ := hiff.1 htrue
    omega
  · rw [← Bool.not_eq_true]
    intro htrue
    obtain ⟨hpos, hcount⟩ := hiff.1 htrue
    have hnone : countNonMinimal tx.MsgTx.TxOut = 0 := by
      unfold countNonMinimal
      rw [List.length_eq_zero, List.filter_eq_nil_iff]
      intro txout hmem
      simp [hall txout hmem]
    omega

/-- C17, witness: with the conversion in exact rational arithmetic, the values
1, 1, 1, 50000 are flagged and have four outputs of which one is not
1 satoshi; a single output and the values 1, 1 are not flagged. -/
theorem hasSuspiciousOutputValues_implies_witness :
    (2 ≤ (valuesTx [1, 1, 1, 50000]).MsgTx.TxOut.length
        ∧ countNonMinimal (valuesTx [1, 1, 1, 50000]).MsgTx.TxOut = 1)
      ∧ (valuesTx [50000]).HasSuspiciousOutputValues ratToBTC (1 / 100000000) = false
      ∧ (valuesTx [1, 1]).HasSuspiciousOutputValues ratToBTC (1 / 100000000) = false :=
  ⟨(hasSuspiciousOutputValues_implies ratToBTC (1 / 100000000) ratToBTC_eq_tiny_iff
      (valuesTx [1, 1, 1, 50000])).1
      ((HasSuspiciousOutputValues_eq_true_iff ratToBTC (1 / 100000000) ratToBTC_eq_tiny_iff
        (valuesTx [1, 1, 1, 50000])).2 (by decide)),
    (hasSuspiciousOutputValues_implies ratToBTC (1 / 100000000) ratToBTC_eq_tiny_iff
      (valuesTx [50000])).2.1 (by decide),
    (hasSuspiciousOutputValues_implies ratToBTC (1 / 100000000) ratToBTC_eq_tiny_iff
      (valuesTx [1, 1])).2.2 (by decide)⟩

/-! ## C18: the order of inputs and outputs -/

theorem exactFee_perm (db : BlockDB) (tx1 tx2 : Tx)
    (hin : tx1.MsgTx.TxIn.Perm tx2.MsgTx.TxIn) (hout : tx1.MsgTx.TxOut.Perm tx2.MsgTx.TxOut) :
    exactFee db tx1 = exactFee db tx2 := by
  unfold exactFee sumReferencedValues sumOutputValues nonCoinbase
  rw [((hin.filter _).map _).sum_eq, (hout.map _).sum_eq]

/-- C18. For every database and every two transactions with no fee cached
whose input lists are permutations of each other and whose output lists are
permutations of each other, if all non-coinbase predecessors resolve with
in-range indexes then `Fee` returns, over that database, the same value
without error for both, the 64-bit value of the exact difference. -/
theorem fee_independent_of_order (db : BlockDB) (tx1 tx2 : Tx)
    (hcache1 : tx1.calculatedFee = false) (hcache2 : tx2.calculatedFee = false)
    (hin : tx1.MsgTx.TxIn.Perm tx2.MsgTx.TxIn) (hout : tx1.MsgTx.TxOut.Perm tx2.MsgTx.TxOut)
    (hres : ∀ txin ∈ tx1.MsgTx.TxIn,
      txin.isCoinbase = false → (referencedValue db txin).isSome = true) :
    (tx1.SetDB db).Fee.result = (tx2.SetDB db).Fee.result
      ∧ (tx1.SetDB db).Fee.result = .ret (wrapInt64 (exactFee db tx1), none) := by
  have hres2 : ∀ txin ∈ tx2.MsgTx.TxIn,
      txin.isCoinbase = false → (referencedValue db txin).isSome = true :=
    fun txin hmem => hres txin (hin.mem_iff.2 hmem)
  have h1 : (tx1.SetDB db).Fee.result = .ret (wrapInt64 (exactFee db tx1), none) := by
    rw [Fee_of_resolved (tx1.SetDB db) hcache1 hres]; rfl
  have h2 : (tx2.SetDB db).Fee.result = .ret (wrapInt64 (exactFee db tx2), none) := by
    rw [Fee_of_resolved (tx2.SetDB db) hcache2 hres2]; rfl
  exact ⟨by rw [h1, h2, exactFee_perm db tx1 tx2 hin hout], h1⟩

/-- C18, witness: `permutedTxA` and `permutedTxB` hold the same inputs and the
same outputs in different orders; over a database in which the spent outputs
hold 5000 and 7000 both have the fee 11000, and over one in which they hold
the largest signed 64-bit value both have the fee -1002. -/
theorem fee_independent_of_order_witness :
    (permutedTxA.SetDB (oneTxDB [mkOut 5000, mkOut 7000])).Fee.result = .ret (11000, none)
      ∧ (permutedTxB.SetDB (oneTxDB [mkOut 5000, mkOut 7000])).Fee.result = .ret (11000, none)
      ∧ (permutedTxA.SetDB
            (oneTxDB [mkOut 9223372036854775807, mkOut 9223372036854775807])).Fee.result
          = (permutedTxB.SetDB
            (oneTxDB [mkOut 9223372036854775807, mkOut 9223372036854775807])).Fee.result
      ∧ (permutedTxA.SetDB
            (oneTxDB [mkOut 9223372036854775807, mkOut 9223372036854775807])).Fee.result
          = .ret (-1002, none) := by
  have hin : permutedTxA.MsgTx.TxIn.Perm permutedTxB.MsgTx.TxIn := by decide
  have hout : permutedTxA.MsgTx.TxOut.Perm permutedTxB.MsgTx.TxOut := by decide
  have hsmall := fee_independent_of_order (oneTxDB [mkOut 5000, mkOut 7000])
    permutedTxA permutedTxB (by decide) (by decide) hin hout (by decide)
  have hbig := fee_independent_of_order
    (oneTxDB [mkOut 9223372036854775807, mkOut 9223372036854775807])
    permutedTxA permutedTxB (by decide) (by decide) hin hout (by decide)
  have hA : (permutedTxA.SetDB (oneTxDB [mkOut 5000, mkOut 7000])).Fee.result
      = .ret (11000, none) := by decide
  exact ⟨hA, hsmall.1 ▸ hA, hbig.1, by decide⟩

/-! ## C19: the aggregations and list append -/

theorem concatExtracted_append (f : Bytes → Bytes × Option Error) (a b : List Bytes) :
    concatExtracted f (a ++ b) = concatExtracted f a ++ concatExtracted f b := by
  simp [concatExtracted, extracted, List.filterMap_append]

theorem concatExtracted_single_of_addsNothing (f : Bytes → Bytes × Option Error)
    (script : Bytes) (h : addsNothing f script) : concatExtracted f [script] = [] := by
  unfold addsNothing at h
  rcases hf : f script with ⟨bs, _ | err⟩
  · rcases h with h | h
    · exact absurd (by rw [hf]) h
    · rw [hf] at h
      simp only at h
      simp [concatExtracted, extracted, hf, h]
  · simp [concatExtracted, extracted, hf]

theorem concatExtracted_insert (f : Bytes → Bytes × Option Error) (a b : List Bytes)
    (script : Bytes) (h : addsNothing f script) :
    concatExtracted f (a ++ script :: b) = concatExtracted f (a ++ b) := by
  have hsplit : a ++ script :: b = a ++ ([script] ++ b) := by simp
  rw [hsplit, concatExtracted_append, concatExtracted_append,
    concatExtracted_single_of_addsNothing f script h, concatExtracted_append]
  simp

/-- The two aggregations over outputs, on a transaction with the given
outputs. -/
theorem aggregations_withOutputs (u : Utils) (tx : Tx) (outs : List TxOut) :
    (withOutputs tx outs).ConcatOPReturnDataFromTxOuts u
        = (some (concatExtracted u.GetOPReturnBytes (outs.map TxOut.PkScript)), none)
      ∧ (withOutputs tx outs).ConcatNonOPDataFromTxOuts u
        = (some (concatExtracted u.GetNonOPBytesFromOutputScript (outs.map TxOut.PkScript)),
            none) := by
  obtain ⟨h1, h2, _, _⟩ := aggregations_eq_concatExtracted u (withOutputs tx outs)
  exact ⟨Prod.ext h1 rfl, Prod.ext h2 rfl⟩

/-- The two aggregations over inputs, on a transaction with the given inputs. -/
theorem aggregations_withInputs (u : Utils) (tx : Tx) (ins : List TxIn) :
    (withInputs tx ins).ConcatNonOPDataFromTxIns u
        = (some (concatExtracted u.GetNonOPBytesFromInputScript
            (ins.map TxIn.SignatureScript)), none)
      ∧ (withInputs tx ins).ConcatPushdataFromTxIns u
        = (some (concatExtracted u.GetPushdataBytesFromInputScript
            (ins.map TxIn.SignatureScript)), none) := by
  obtain ⟨_, _, h3, h4⟩ := aggregations_eq_concatExtracted u (withInputs tx ins)
  exact ⟨Prod.ext h3 rfl, Prod.ext h4 rfl⟩

/-- C19. For every extractor, every two lists of outputs `a`, `b` and every
two lists of inputs `c`, `d`: each of the four aggregations over the list
followed by the other returns the bytes it returns over the first followed
by the bytes it returns over the second; over the empty list it returns the
empty byte sequence; and a script on which the extractor fails or yields no
bytes can be inserted anywhere without changing what is returned. -/
theorem aggregations_distribute_over_append (u : Utils) (tx : Tx) (a b : List TxOut)
    (c d : List TxIn) :
    (((withOutputs tx (a ++ b)).ConcatOPReturnDataFromTxOuts u).1
          = some (sliceElems ((withOutputs tx a).ConcatOPReturnDataFromTxOuts u).1
              ++ sliceElems ((withOutputs tx b).ConcatOPReturnDataFromTxOuts u).1)
        ∧ ((withOutputs tx (a ++ b)).ConcatNonOPDataFromTxOuts u).1
          = some (sliceElems ((withOutputs tx a).ConcatNonOPDataFromTxOuts u).1
              ++ sliceElems ((withOutputs tx b).ConcatNonOPDataFromTxOuts u).1)
        ∧ ((withInputs tx (c ++ d)).ConcatNonOPDataFromTxIns u).1
          = some (sliceElems ((withInputs tx c).ConcatNonOPDataFromTxIns u).1
              ++ sliceElems ((withInputs tx d).ConcatNonOPDataFromTxIns u).1)
        ∧ ((withInputs tx (c ++ d)).ConcatPushdataFromTxIns u).1
          = some (sliceElems ((withInputs tx c).ConcatPushdataFromTxIns u).1
              ++ sliceElems ((withInputs tx d).ConcatPushdataFromTxIns u).1))
      ∧ ((withOutputs tx []).ConcatOPReturnDataFromTxOuts u = (some [], none)
        ∧ (withOutputs tx []).ConcatNonOPDataFromTxOuts u = (some [], none)
        ∧ (withInputs tx []).ConcatNonOPDataFromTxIns u = (some [], none)
        ∧ (withInputs tx []).ConcatPushdataFromTxIns u = (some [], none))
      ∧ (∀ txout : TxOut,
          (addsNothing u.GetOPReturnBytes txout.PkScript
            → (withOutputs tx (a ++ txout :: b)).ConcatOPReturnDataFromTxOuts u
              = (withOutputs tx (a ++ b)).ConcatOPReturnDataFromTxOuts u)
          ∧ (addsNothing u.GetNonOPBytesFromOutputScript txout.PkScript
            → (withOutputs tx (a ++ txout :: b)).ConcatNonOPDataFromTxOuts u
              = (withOutputs tx (a ++ b)).ConcatNonOPDataFromTxOuts u))
      ∧ ∀ txin : TxIn,
          (addsNothing u.GetNonOPBytesFromInputScript txin.SignatureScript
            → (withInputs tx (c ++ txin :: d)).ConcatNonOPDataFromTxIns u
              = (withInputs tx (c ++ d)).ConcatNonOPDataFromTxIns u)
          ∧ (addsNothing u.GetPushdataBytesFromInputScript txin.SignatureScript
            → (withInputs tx (c ++ txin :: d)).ConcatPushdataFromTxIns u
              = (withInputs tx (c ++ d)).ConcatPushdataFromTxIns u) := by
  have hout := aggregations_withOutputs u tx
  have hin := aggregations_withInputs u tx
  refine ⟨⟨?_, ?_, ?_, ?_⟩, ⟨?_, ?_, ?_, ?_⟩, fun txout => ⟨fun h => ?_, fun h => ?_⟩,
    fun txin => ⟨fun h => ?_, fun h => ?_⟩⟩
  · rw [(hout (a ++ b)).1, (hout a).1, (hout b).1]
    simp [sliceElems, concatExtracted_append]
  · rw [(hout (a ++ b)).2, (hout a).2, (hout b).2]
    simp [sliceElems, concatExtracted_append]
  · rw [(hin (c ++ d)).1, (hin c).1, (hin d).1]
    simp [sliceElems, concatExtracted_append]
  · rw [(hin (c ++ d)).2, (hin c).2, (hin d).2]
    simp [sliceElems, concatExtracted_append]
  · rw [(hout []).1]; rfl
  · rw [(hout []).2]; rfl
  · rw [(hin []).1]; rfl
  · rw [(hin []).2]; rfl
  · rw [(hout _).1, (hout _).1, List.map_append, List.map_cons,
      concatExtracted_insert _ _ _ _ h, List.map_append]
  · rw [(hout _).2, (hout _).2, List.map_append, List.map_cons,
      concatExtracted_insert _ _ _ _ h, List.map_append]
  · rw [(hin _).1, (hin _).1, List.map_append, List.map_cons,
      concatExtracted_insert _ _ _ _ h, List.map_append]
  · rw [(hin _).2, (hin _).2, List.map_append, List.map_cons,
      concatExtracted_insert _ _ _ _ h, List.map_append]

/-- C19, witness: with extractors that accept the scripts starting with the
byte 106, the outputs with scripts `106 1 2` and `106 3` aggregate to
`1 2 3`, the first alone to `1 2` and the second alone to `3`, and the
output with script `5 5`, on which the extractor fails, can be put between
them. -/
theorem aggregations_distribute_over_append_witness :
    ((withOutputs scriptsTx [⟨10, some [106, 1, 2]⟩, ⟨30, some [106, 3]⟩]).ConcatOPReturnDataFromTxOuts
          markerUtils).1 = some ([1, 2] ++ [3])
      ∧ (withOutputs scriptsTx
            [⟨10, some [106, 1, 2]⟩, ⟨20, some [5, 5]⟩, ⟨30, some [106, 3]⟩]).ConcatOPReturnDataFromTxOuts
          markerUtils
        = (withOutputs scriptsTx
            [⟨10, some [106, 1, 2]⟩, ⟨30, some [106, 3]⟩]).ConcatOPReturnDataFromTxOuts
          markerUtils := by
  have h := aggregations_distribute_over_append markerUtils scriptsTx
    [⟨10, some [106, 1, 2]⟩] [⟨30, some [106, 3]⟩] [] []
  exact ⟨h.1.1, (h.2.2.1 ⟨20, some [5, 5]⟩).1 (Or.inl (by decide))⟩

/-! ## C20: the block file name -/

theorem repr_toList (n : Nat) : (Nat.repr n).toList = Nat.toDigits 10 n := rfl

theorem toDigitsCore_step (fuel n : Nat) (ds : List Char) :
    Nat.toDigitsCore 10 (fuel + 1) n ds
      = if n / 10 = 0 then Nat.digitChar (n % 10) :: ds
        else Nat.toDigitsCore 10 fuel (n / 10) (Nat.digitChar (n % 10) :: ds) := rfl

theorem padded_toDigits (n : Nat) (h : n < 100000) :
    List.replicate (5 - (Nat.toDigits 10 n).length) '0' ++ Nat.toDigits 10 n = fiveDigits n := by
  unfold Nat.toDigits fiveDigits
  have hz : Nat.digitChar 0 = '0' := rfl
  by_cases h1 : n < 10
  · have e0 : n / 10 = 0 := by omega
    have d4 : n / 10000 % 10 = 0 := by omega
    have d3 : n / 1000 % 10 = 0 := by omega
    have d2 : n / 100 % 10 = 0 := by omega
    have d1 : n / 10 % 10 = 0 := by omega
    rw [toDigitsCore_step, if_pos e0, d4, d3, d2, d1, hz]
    rfl
  by_cases h2 : n < 100
  · obtain ⟨m, rfl⟩ : ∃ m, n = m + 1 := ⟨n - 1, by omega⟩
    have e0 : (m + 1) / 10 ≠ 0 := by omega
    have e1 : (m + 1) / 10 / 10 = 0 := by omega
    have d4 : (m + 1) / 10000 % 10 = 0 := by omega
    have d3 : (m + 1) / 1000 % 10 = 0 := by omega
    have d2 : (m + 1) / 100 % 10 = 0 := by omega
    rw [toDigitsCore_step, if_neg e0, toDigitsCore_step, if_pos e1, d4, d3, d2, hz]
    rfl
  by_cases h3 : n < 1000
  · obtain ⟨m, rfl⟩ : ∃ m, n = m + 2 := ⟨n - 2, by omega⟩
    have e0 : (m + 2) / 10 ≠ 0 := by omega
    have e1 : (m + 2) / 10 / 10 ≠ 0 := by omega
    have e2 : (m + 2) / 10 / 10 / 10 = 0 := by omega
    have c2 : (m + 2) / 10 / 10 = (m + 2) / 100 := by omega
    have d4 : (m + 2) / 10000 % 10 = 0 := by omega
    have d3 : (m + 2) / 1000 % 10 = 0 := by omega
    rw [toDigitsCore_step, if_neg e0, toDigitsCore_step, if_neg e1, toDigitsCore_step,
      if_pos e2, d4, d3, hz, c2]
    rfl
  by_cases h4 : n < 10000
  · obtain ⟨m, rfl⟩ : ∃ m, n = m + 3 := ⟨n - 3, by omega⟩
    have e0 : (m + 3) / 10 ≠ 0 := by omega
    have e1 : (m + 3) / 10 / 10 ≠ 0 := by omega
    have e2 : (m + 3) / 10 / 10 / 10 ≠ 0 := by omega
    have e3 : (m + 3) / 10 / 10 / 10 / 10 = 0 := by omega
    have c3 : (m + 3) / 10 / 10 / 10 = (m + 3) / 1000 := by omega
    have c2 : (m + 3) / 10 / 10 = (m + 3) / 100 := by omega
    have d4 : (m + 3) / 10000 % 10 = 0 := by omega
    rw [toDigitsCore_step, if_neg e0, toDigitsCore_step, if_neg e1, toDigitsCore_step,
      if_neg e2, toDigitsCore_step, if_pos e3, d4, hz, c3, c2]
    rfl
  · obtain ⟨m, rfl⟩ : ∃ m, n = m + 4 := ⟨n - 4, by omega⟩
    have e0 : (m + 4) / 10 ≠ 0 := by omega
    have e1 : (m + 4) / 10 / 10 ≠ 0 := by omega
    have e2 : (m + 4) / 10 / 10 / 10 ≠ 0 := by omega
    have e3 : (m + 4) / 10 / 10 / 10 / 10 ≠ 0 := by omega
    have e4 : (m + 4) / 10 / 10 / 10 / 10 / 10 = 0 := by omega
    have c4 : (m + 4) / 10 / 10 / 10 / 10 = (m + 4) / 10000 := by omega
    have c3 : (m + 4) / 10 / 10 / 10 = (m + 4) / 1000 := by omega
    have c2 : (m + 4) / 10 / 10 = (m + 4) / 100 := by omega
    rw [toDigitsCore_step, if_neg e0, toDigitsCore_step, if_neg e1, toDigitsCore_step,
      if_neg e2, toDigitsCore_step, if_neg e3, toDigitsCore_step, if_pos e4, c4, c3, c2]
    rfl

theorem digitChar_injective_lt_ten :
    ∀ x < 10, ∀ y < 10, Nat.digitChar x = Nat.digitChar y → x = y := by
  decide

theorem fiveDigits_injective (a b : Nat) (ha : a < 100000) (hb : b < 100000)
    (h : fiveDigits a = fiveDigits b) : a = b := by
  unfold fiveDigits at h
  simp only [List.cons.injEq, and_true] at h
  obtain ⟨h4, h3, h2, h1, h0⟩ := h
  have g4 := digitChar_injective_lt_ten _ (Nat.mod_lt _ (by decide)) _ (Nat.mod_lt _ (by decide)) h4
  have g3 := digitChar_injective_lt_ten _ (Nat.mod_lt _ (by decide)) _ (Nat.mod_lt _ (by decide)) h3
  have g2 := digitChar_injective_lt_ten _ (Nat.mod_lt _ (by decide)) _ (Nat.mod_lt _ (by decide)) h2
  have g1 := digitChar_injective_lt_ten _ (Nat.mod_lt _ (by decide)) _ (Nat.mod_lt _ (by decide)) h1
  have g0 := digitChar_injective_lt_ten _ (Nat.mod_lt _ (by decide)) _ (Nat.mod_lt _ (by decide)) h0
  omega

theorem paddedName_length (i : Nat) : (paddedName i).length = 12 := by
  simp only [paddedName, fiveDigits, String.length_append]
  rfl

theorem paddedName_injective (a b : Nat) (ha : a < 100000) (hb : b < 100000)
    (h : paddedName a = paddedName b) : a = b := by
  apply fiveDigits_injective a b ha hb
  have hd := congrArg String.data h
  simpa [paddedName, String.data_append] using hd

theorem DATFilename_eq_paddedName (tx : Tx) (h : tx.DATFileIdx < 65536) :
    tx.DATFilename = paddedName tx.DATFileIdx := by
  unfold Tx.DATFilename paddedName
  simp only [repr_toList]
  rw [padded_toDigits tx.DATFileIdx (by omega)]

/-- C20. For every 16-bit file index `DATFilename` returns `blk`, then the
five decimal digits of the index with leading zeros, then `.dat`; the name
is 12 characters long, and two transactions with the same name have the same
file index. -/
theorem datFilename_is_zero_padded (tx other : Tx) (h : tx.DATFileIdx < 65536)
    (hother : other.DATFileIdx < 65536) :
    tx.DATFilename = "blk" ++ String.mk (fiveDigits tx.DATFileIdx) ++ ".dat"
      ∧ tx.DATFilename.length = 12
      ∧ (tx.DATFilename = other.DATFilename → tx.DATFileIdx = other.DATFileIdx)
      ∧ (tx.DATFileIdx ≠ other.DATFileIdx → tx.DATFilename ≠ other.DATFilename) := by
  have h1 := DATFilename_eq_paddedName tx h
  have h2 := DATFilename_eq_paddedName other hother
  have hinj : tx.DATFilename = other.DATFilename → tx.DATFileIdx = other.DATFileIdx := by
    intro heq
    rw [h1, h2] at heq
    exact paddedName_injective _ _ (by omega) (by omega) heq
  exact ⟨h1, by rw [h1]; exact paddedName_length _, hinj, fun hne heq => hne (hinj heq)⟩

/-- C20, witness: the index 0 gives `blk00000.dat`, the index 65535 gives
`blk65535.dat`, and the two names differ. -/
theorem datFilename_is_zero_padded_witness :
    (fileTx 0).DATFilename = "blk00000.dat"
      ∧ (fileTx 65535).DATFilename = "blk65535.dat"
      ∧ (fileTx 0).DATFilename ≠ (fileTx 65535).DATFilename := by
  have h := datFilename_is_zero_padded (fileTx 0) (fileTx 65535) (by decide) (by decide)
  have h2 := datFilename_is_zero_padded (fileTx 65535) (fileTx 0) (by decide) (by decide)
  refine ⟨?_, ?_, h.2.2.2 (by decide)⟩
  · rw [h.1]; decide
  · rw [h2.1]; decide

/-! ## C4: coinbase inputs, in every state of an instance -/

theorem Fee_tx_MsgTx_db (tx : Tx) : tx.Fee.tx.MsgTx = tx.MsgTx ∧ tx.Fee.tx.db = tx.db := by
  by_cases hcache : tx.calculatedFee = true
  · rw [Fee_of_cached tx hcache]
    exact ⟨rfl, rfl⟩
  · have hc : tx.calculatedFee = false := by simpa using hcache
    unfold Tx.Fee
    simp only [hc, Bool.false_eq_true, if_false]
    rcases (Fee.inValues tx.db tx.txHash tx.MsgTx.TxIn 0 0).exit with iv | ⟨err, log⟩ | _ <;>
      exact ⟨rfl, rfl⟩

theorem TxOp.after_MsgTx (op : TxOp) (tx : Tx) : (op.after tx).MsgTx = tx.MsgTx := by
  cases op with
  | Fee => exact (Fee_tx_MsgTx_db tx).1
  | SetDB db => rfl
  | query q => rfl

theorem runOps_MsgTx (ops : List TxOp) (tx : Tx) : (runOps tx ops).MsgTx = tx.MsgTx := by
  induction ops generalizing tx with
  | nil => rfl
  | cons op rest ih =>
    have hrun : runOps tx (op :: rest) = runOps (op.after tx) rest := rfl
    rw [hrun, ih, TxOp.after_MsgTx]

/-- Whatever calls were made on a new instance whose inputs are all coinbase
inputs, a cached fee is the 64-bit value of 0 minus the sum of the own output
values. -/
theorem runOps_all_coinbase_fee (fresh : Tx) (hfresh : fresh.calculatedFee = false)
    (ops : List TxOp)
    (hall : ∀ txin ∈ fresh.MsgTx.TxIn, txin.PreviousOutPoint.Hash = emptyHash)
    (hset : (runOps fresh ops).calculatedFee = true) :
    (runOps fresh ops).fee = wrapInt64 (0 - sumOutputValues fresh.MsgTx.TxOut) := by
  obtain ⟨pre, post, _, hpre, hres⟩ := runOps_cached_has_cause ops fresh hfresh hset
  have hmsg := runOps_MsgTx pre fresh
  have hall2 : ∀ txin ∈ (runOps fresh pre).MsgTx.TxIn,
      txin.PreviousOutPoint.Hash = emptyHash := by rw [hmsg]; exact hall
  have h := (Fee_of_all_coinbase (runOps fresh pre) hpre hall2).1
  rw [hres, hmsg] at h
  simp only [Outcome.ret.injEq, Prod.mk.injEq, and_true] at h
  exact h

/-- C4, as amended. For every transaction `Fee` returns what it returns for
the same transaction with the coinbase inputs removed, and makes the same
database calls. For a transaction whose inputs are all coinbase inputs, in
whatever state calls of `Fee`, `SetDB` and the queries have brought a newly
created instance, over every database, `Fee` makes no database call and
returns without error 0 minus the sum of the own output values reduced modulo
2^64 into the signed 64-bit range, which is 0 minus that sum whenever this
fits a signed 64-bit integer. -/
theorem coinbase_inputs_contribute_nothing (tx fresh : Tx)
    (hfresh : fresh.calculatedFee = false) (ops : List TxOp) :
    (tx.Fee.result = (withoutCoinbase tx).Fee.result
        ∧ tx.Fee.calls = (withoutCoinbase tx).Fee.calls)
      ∧ ((∀ txin ∈ (runOps fresh ops).MsgTx.TxIn, txin.PreviousOutPoint.Hash = emptyHash) →
          ∀ db : BlockDB,
            ((runOps fresh ops).SetDB db).Fee.result
                = .ret (wrapInt64 (0 - sumOutputValues (runOps fresh ops).MsgTx.TxOut), none)
              ∧ ((runOps fresh ops).SetDB db).Fee.calls = []
              ∧ (-9223372036854775808 ≤ 0 - sumOutputValues (runOps fresh ops).MsgTx.TxOut
                  → 0 - sumOutputValues (runOps fresh ops).MsgTx.TxOut < 9223372036854775808
                  → ((runOps fresh ops).SetDB db).Fee.result
                    = .ret (0 - sumOutputValues (runOps fresh ops).MsgTx.TxOut, none))) := by
  refine ⟨Fee_withoutCoinbase tx, fun hall db => ?_⟩
  have hmsg := runOps_MsgTx ops fresh
  have hboth : ((runOps fresh ops).SetDB db).Fee.result
        = .ret (wrapInt64 (0 - sumOutputValues (runOps fresh ops).MsgTx.TxOut), none)
      ∧ ((runOps fresh ops).SetDB db).Fee.calls = [] := by
    by_cases hset : (runOps fresh ops).calculatedFee = true
    · have hfee := runOps_all_coinbase_fee fresh hfresh ops (by rw [← hmsg]; exact hall) hset
      have hcached : ((runOps fresh ops).SetDB db).calculatedFee = true := hset
      rw [Fee_of_cached _ hcached]
      refine ⟨?_, rfl⟩
      show Outcome.ret ((runOps fresh ops).fee, none) = _
      rw [hfee, hmsg]
    · have hc : ((runOps fresh ops).SetDB db).calculatedFee = false := by simpa using hset
      exact Fee_of_all_coinbase ((runOps fresh ops).SetDB db) hc hall
  refine ⟨hboth.1, hboth.2, fun hlo hhi => ?_⟩
  rw [hboth.1, wrapInt64_of_fits _ hlo hhi]

/-- C4, witness: a transaction with one coinbase input and one output of
5000000000 has the fee -5000000000 and looks nothing up over a database that
resolves nothing, both as a new instance and after its fee was cached and
its database replaced. -/
theorem coinbase_inputs_contribute_nothing_witness :
    ((runOps coinbaseTx []).SetDB emptyDB).Fee.result = .ret (-5000000000, none)
      ∧ (runOps coinbaseTx coinbaseOps).calculatedFee = true
      ∧ ((runOps coinbaseTx coinbaseOps).SetDB emptyDB).Fee.result = .ret (-5000000000, none)
      ∧ ((runOps coinbaseTx coinbaseOps).SetDB emptyDB).Fee.calls = [] := by
  have h0 := (coinbase_inputs_contribute_nothing coinbaseTx coinbaseTx (by decide) []).2
    (by decide) emptyDB
  have h1 := (coinbase_inputs_contribute_nothing coinbaseTx coinbaseTx (by decide)
    coinbaseOps).2 (by decide) emptyDB
  exact ⟨h0.2.2 (by decide) (by decide), by decide, h1.2.2 (by decide) (by decide), h1.2.1⟩

/-! ## C16: the fee modulo 2^64 -/

/-- A fee cached over the database still in place is the 64-bit value of the
exact difference over that database. -/
theorem runOps_kept_fee (fresh : Tx) (hfresh : fresh.calculatedFee = false) (ops : List TxOp)
    (hkept : databaseKeptSinceCached fresh ops)
    (hres : ∀ txin ∈ (runOps fresh ops).MsgTx.TxIn,
      txin.isCoinbase = false → (referencedValue (runOps fresh ops).db txin).isSome = true)
    (hset : (runOps fresh ops).calculatedFee = true) :
    (runOps fresh ops).fee = wrapInt64 (exactFee (runOps fresh ops).db (runOps fresh ops)) := by
  obtain ⟨pre, post, hsplit, hpre, hresult⟩ := runOps_cached_has_cause ops fresh hfresh hset
  have hcached := (Fee_success_caches (runOps fresh pre) _ hresult).1
  have htake : ops.take (pre.length + 1) = pre ++ [TxOp.Fee] := by
    rw [hsplit]; simp [List.take_append_eq_append_take]
  have hrun : runOps fresh (pre ++ [TxOp.Fee]) = (runOps fresh pre).Fee.tx := by
    rw [runOps_append]; rfl
  have hdb : (runOps fresh pre).db = (runOps fresh ops).db := by
    have h := hkept (pre.length + 1) (by rw [hsplit]; simp)
    rw [htake, hrun] at h
    rw [← h hcached]
    exact (Fee_tx_MsgTx_db (runOps fresh pre)).2.symm
  have hmsg : (runOps fresh pre).MsgTx = (runOps fresh ops).MsgTx := by
    rw [runOps_MsgTx, runOps_MsgTx]
  have hres2 : ∀ txin ∈ (runOps fresh pre).MsgTx.TxIn,
      txin.isCoinbase = false → (referencedValue (runOps fresh pre).db txin).isSome = true := by
    rw [hmsg, hdb]; exact hres
  have hfee := Fee_of_resolved (runOps fresh pre) hpre hres2
  rw [hfee] at hresult
  simp only [Outcome.ret.injEq, Prod.mk.injEq, and_true] at hresult
  rw [← hresult]
  unfold exactFee
  rw [hmsg, hdb]

end Blockdb
